import Mathlib

/-!
# Patrimoine arboré de Marcq-en-Barœul : record synchronisation layer

A shallow embedding of the data layer of `Photos_Arbres_Marcq/app.js`: the in-memory
record store (`trees`), the local cache (`localStorage`), the remote sync client
(`syncToSheets`, `deleteFromSheets`, `loadTreesFromSheets`), the import merge, the
one-slot undo buffer (`lastDeletedTree`) and the text helpers `normalizeTags` and `escapeHtml`.

Conventions of the embedding.

* JavaScript values are the type `JVal`. Finite numbers are rationals (every finite double is
  one; `+0` and `-0` are identified, which no operation used here can tell apart).
* An object is the list of its own enumerable properties in enumeration order, each key once.
* Arrays and objects are compared by content. JavaScript compares them by reference, so for an
  `id` that is itself an array or an object the embedding reads "same reference" as "same
  content"; for primitive ids (strings, numbers, booleans) it is exact.
* An event handler runs from start to end without another handler interleaving at its `await`s.
* Rendering has no effect on the modelled state, but it can raise, and so can the write of the
  cache. The reads that `addOrUpdateMarker` makes on a record (lines 575-577) are followed; what
  Leaflet and the DOM raise beyond them (`displayError`) and what `localStorage.setItem` raises
  (`setItemError`) are fields of `Platform`.
* A form field is a string that holds what was assigned to it; the characters of a string are
  the characters of a Lean `String` (Unicode scalar values).
* Built-ins of the platform that the program calls (`JSON.parse`, `JSON.stringify`,
  `parseFloat`, `Number`, number formatting, the point-in-polygon lookup) are fields of
  `Platform`.
-/

namespace Arbres

/-! ## JavaScript values -/

/-- A JavaScript number: a finite value, `NaN`, or an infinity. -/
inductive JNum where
  | fin (q : ℚ)
  | nan
  | inf (negative : Bool)
  deriving DecidableEq

/-- JavaScript values that the data layer handles: JSON values and `undefined`. -/
inductive JVal where
  | undefined
  | null
  | bool (b : Bool)
  | num (n : JNum)
  | str (s : String)
  | arr (xs : List JVal)
  | obj (ps : List (String × JVal))

namespace JVal

mutual
/-- Decidable equality of values. -/
def decEq : (a b : JVal) → Decidable (a = b)
  | undefined, undefined => isTrue rfl
  | null, null => isTrue rfl
  | bool a, bool b =>
    if h : a = b then isTrue (by rw [h]) else isFalse (by intro e; cases e; exact h rfl)
  | num a, num b =>
    if h : a = b then isTrue (by rw [h]) else isFalse (by intro e; cases e; exact h rfl)
  | str a, str b =>
    if h : a = b then isTrue (by rw [h]) else isFalse (by intro e; cases e; exact h rfl)
  | arr a, arr b =>
    match decEqList a b with
    | isTrue h => isTrue (by rw [h])
    | isFalse h => isFalse (by intro e; cases e; exact h rfl)
  | obj a, obj b =>
    match decEqProps a b with
    | isTrue h => isTrue (by rw [h])
    | isFalse h => isFalse (by intro e; cases e; exact h rfl)
  | undefined, null => isFalse (by intro e; cases e)
  | undefined, bool _ => isFalse (by intro e; cases e)
  | undefined, num _ => isFalse (by intro e; cases e)
  | undefined, str _ => isFalse (by intro e; cases e)
  | undefined, arr _ => isFalse (by intro e; cases e)
  | undefined, obj _ => isFalse (by intro e; cases e)
  | null, undefined => isFalse (by intro e; cases e)
  | null, bool _ => isFalse (by intro e; cases e)
  | null, num _ => isFalse (by intro e; cases e)
  | null, str _ => isFalse (by intro e; cases e)
  | null, arr _ => isFalse (by intro e; cases e)
  | null, obj _ => isFalse (by intro e; cases e)
  | bool _, undefined => isFalse (by intro e; cases e)
  | bool _, null => isFalse (by intro e; cases e)
  | bool _, num _ => isFalse (by intro e; cases e)
  | bool _, str _ => isFalse (by intro e; cases e)
  | bool _, arr _ => isFalse (by intro e; cases e)
  | bool _, obj _ => isFalse (by intro e; cases e)
  | num _, undefined => isFalse (by intro e; cases e)
  | num _, null => isFalse (by intro e; cases e)
  | num _, bool _ => isFalse (by intro e; cases e)
  | num _, str _ => isFalse (by intro e; cases e)
  | num _, arr _ => isFalse (by intro e; cases e)
  | num _, obj _ => isFalse (by intro e; cases e)
  | str _, undefined => isFalse (by intro e; cases e)
  | str _, null => isFalse (by intro e; cases e)
  | str _, bool _ => isFalse (by intro e; cases e)
  | str _, num _ => isFalse (by intro e; cases e)
  | str _, arr _ => isFalse (by intro e; cases e)
  | str _, obj _ => isFalse (by intro e; cases e)
  | arr _, undefined => isFalse (by intro e; cases e)
  | arr _, null => isFalse (by intro e; cases e)
  | arr _, bool _ => isFalse (by intro e; cases e)
  | arr _, num _ => isFalse (by intro e; cases e)
  | arr _, str _ => isFalse (by intro e; cases e)
  | arr _, obj _ => isFalse (by intro e; cases e)
  | obj _, undefined => isFalse (by intro e; cases e)
  | obj _, null => isFalse (by intro e; cases e)
  | obj _, bool _ => isFalse (by intro e; cases e)
  | obj _, num _ => isFalse (by intro e; cases e)
  | obj _, str _ => isFalse (by intro e; cases e)
  | obj _, arr _ => isFalse (by intro e; cases e)
/-- Decidable equality of lists of values. -/
def decEqList : (a b : List JVal) → Decidable (a = b)
  | [], [] => isTrue rfl
  | [], _ :: _ => isFalse (by intro e; cases e)
  | _ :: _, [] => isFalse (by intro e; cases e)
  | x :: xs, y :: ys =>
    match decEq x y, decEqList xs ys with
    | isTrue h1, isTrue h2 => isTrue (by rw [h1, h2])
    | isFalse h, _ => isFalse (by intro e; cases e; exact h rfl)
    | _, isFalse h => isFalse (by intro e; cases e; exact h rfl)
/-- Decidable equality of property lists. -/
def decEqProps : (a b : List (String × JVal)) → Decidable (a = b)
  | [], [] => isTrue rfl
  | [], _ :: _ => isFalse (by intro e; cases e)
  | _ :: _, [] => isFalse (by intro e; cases e)
  | (k, x) :: xs, (l, y) :: ys =>
    if hk : k = l then
      match decEq x y, decEqProps xs ys with
      | isTrue h1, isTrue h2 => isTrue (by rw [hk, h1, h2])
      | isFalse h, _ => isFalse (by intro e; cases e; exact h rfl)
      | _, isFalse h => isFalse (by intro e; cases e; exact h rfl)
    else isFalse (by intro e; cases e; exact hk rfl)
end

instance : DecidableEq JVal := decEq

end JVal

open JVal

/-- Exceptions that the modelled code can raise. -/
inductive JsError where
  | typeError
  | referenceError
  | syntaxError
  | error (message : String)
  deriving DecidableEq

/-- Decidable equality of results, so that closed statements about handlers can be evaluated. -/
instance instDecidableEqExcept {ε α : Type} [DecidableEq ε] [DecidableEq α] :
    DecidableEq (Except ε α)
  | .ok a, .ok b =>
    if h : a = b then isTrue (by rw [h]) else isFalse (by intro e; cases e; exact h rfl)
  | .error a, .error b =>
    if h : a = b then isTrue (by rw [h]) else isFalse (by intro e; cases e; exact h rfl)
  | .ok _, .error _ => isFalse (by intro e; cases e)
  | .error _, .ok _ => isFalse (by intro e; cases e)

/-- The test `Number.isFinite(x)` on a number. -/
def JNum.isFinite : JNum → Bool
  | .fin _ => true
  | .nan => false
  | .inf _ => false

/-- The test `ToBoolean(v)`: what `!v`, `v || w` and `if (v)` look at. -/
def truthy : JVal → Bool
  | .undefined => false
  | .null => false
  | .bool b => b
  | .num (.fin q) => q != 0
  | .num .nan => false
  | .num (.inf _) => true
  | .str s => s != ""
  | .arr _ => true
  | .obj _ => true

/-- The test `Array.isArray(v)`. -/
def isArray : JVal → Bool
  | .arr _ => true
  | _ => false

/-- The comparison `SameValueZero(a, b)` of `Map` keys: equality of primitive values; arrays and
objects are compared by content, which stands for the identity of references. -/
def sameValueZero (a b : JVal) : Bool :=
  decide (a = b)

/-- The comparison `a === b`: as `SameValueZero`, except that `NaN` differs from itself. -/
def strictEq (a b : JVal) : Bool :=
  decide (a = b) && decide (a ≠ .num .nan)

/-- Member access `v.k` for a data key `k` (`id`, `trees`, `photos`, ...): a `TypeError` on
`null` and `undefined`, the own property of an object, `undefined` on any other value (none of
the keys read by the program is a built-in property of arrays, strings, numbers or booleans). -/
def getProp (v : JVal) (k : String) : Except JsError JVal :=
  match v with
  | .undefined => .error .typeError
  | .null => .error .typeError
  | .obj ps => .ok ((ps.lookup k).getD .undefined)
  | _ => .ok .undefined

/-- Replace or append the property `k` in a property list (`t.k = v` on an object). -/
def setField : List (String × JVal) → String → JVal → List (String × JVal)
  | [], k, v => [(k, v)]
  | (k', v') :: rest, k, v =>
    if k' = k then (k', v) :: rest else (k', v') :: setField rest k v

/-! ## The `Map` built by the import -/

/-- The entries of a JavaScript `Map`, in insertion order. -/
abbrev JsMap := List (JVal × JVal)

/-- The call `m.set(k, v)`: an existing key keeps its position and gets the new value, a new
key is appended. -/
def mapSet : JsMap → JVal → JVal → JsMap
  | [], k, v => [(k, v)]
  | (k', v') :: rest, k, v =>
    if sameValueZero k' k then (k', v) :: rest else (k', v') :: mapSet rest k v

/-- The constructor `new Map(entries)`: the entries are set one after the other. -/
def newMap (entries : List (JVal × JVal)) : JsMap :=
  entries.foldl (fun m e => mapSet m e.1 e.2) []

/-- The pairs `trees.map((t) => [t.id, t])`; reading `t.id` raises on a `null` element. -/
def idEntries : List JVal → Except JsError (List (JVal × JVal))
  | [] => .ok []
  | t :: rest =>
    match getProp t "id" with
    | .error e => .error e
    | .ok k =>
      match idEntries rest with
      | .error e => .error e
      | .ok es => .ok ((k, t) :: es)

/-- One turn of `for (const t of incoming) { if (!t || !t.id) continue; byId.set(t.id, t); }`. -/
def mergeStep (byId : JsMap) (t : JVal) : JsMap :=
  if !truthy t then byId
  else
    match getProp t "id" with
    | .error _ => byId
    | .ok k => if !truthy k then byId else mapSet byId k t

/-- The import merge (lines 766-771): a map keyed by id seeded with the current records, then
overwritten by each incoming entry that has a truthy id; the result is `Array.from(byId.values())`. -/
def mergeTrees (current incoming : List JVal) : Except JsError (List JVal) :=
  match idEntries current with
  | .error e => .error e
  | .ok es => .ok ((incoming.foldl mergeStep (newMap es)).map Prod.snd)

/-! ## Text helpers -/

/-- The characters removed by `String.prototype.trim`: ECMAScript white space and line
terminators. -/
def isJsSpace (c : Char) : Bool :=
  let n := c.toNat
  n == 0x09 || n == 0x0A || n == 0x0B || n == 0x0C || n == 0x0D || n == 0x20 || n == 0xA0 ||
    n == 0x1680 || (0x2000 ≤ n && n ≤ 0x200A) || n == 0x2028 || n == 0x2029 || n == 0x202F ||
    n == 0x205F || n == 0x3000 || n == 0xFEFF

/-- The method `s.trim()` on the characters of a string. -/
def trimChars (cs : List Char) : List Char :=
  ((cs.dropWhile isJsSpace).reverse.dropWhile isJsSpace).reverse

/-- The method `s.trim()`. -/
def jsTrim (s : String) : String :=
  String.mk (trimChars s.toList)

/-- The method `s.split(",")` on the characters of a string: the pieces between commas (one
empty piece for the empty string). -/
def splitComma : List Char → List (List Char)
  | [] => [[]]
  | c :: cs =>
    if c = ',' then [] :: splitComma cs
    else
      match splitComma cs with
      | [] => [[c]]
      | p :: ps => (c :: p) :: ps

/-- The function `normalizeTags(s)` (lines 78-83): `(s || "").split(",").map(trim).filter(Boolean)`;
`none` is a missing input. -/
def normalizeTags (s : Option String) : List String :=
  ((splitComma (s.getD "").toList).map (fun p => String.mk (trimChars p))).filter
    (fun t => t != "")

/-! ## Platform and state -/

/-- The parts of the rendering that run in Leaflet and in the DOM. -/
inductive Display where
  /-- The removal of the markers at the start of `renderMarkers()` (lines 614-615). -/
  | clearMarkers
  /-- The Leaflet calls of `addOrUpdateMarker(t)` (lines 579-602): the popup, `L.marker` on the
  coordinates of the record, the icon. -/
  | marker (t : JVal)
  /-- The call `removeMarker(id)` (lines 605-611). -/
  | removeMarker (id : JVal)
  /-- The calls `renderList()` and `renderSecteurCount()` on the store, with the selection. -/
  | list (trees selectedId : JVal)
  /-- The form filling, the gallery and the preview of `setSelected(id)` (lines 539-568). -/
  | form (trees id : JVal)

/-- Built-ins of the browser that the program calls. -/
structure Platform where
  /-- The call `JSON.parse(text)`; `none` when it raises a `SyntaxError`. -/
  jsonParse : String → Option JVal
  /-- The call `JSON.stringify(v)`. -/
  jsonStringify : JVal → String
  /-- The call `parseFloat(text)`. -/
  parseFloat : String → JNum
  /-- The call `Number(text)`. -/
  toNumber : String → JNum
  /-- The conversion of a number to a string. -/
  numToString : JNum → String
  /-- The lookup `leafletPip.pointInLayer([lng, lat], quartiersLayer)` as the list of the
  `feature?.properties?.name` of the layers found; `none` when the zone layer or the library is
  not loaded. -/
  pointInLayer : Option (JNum → JNum → List JVal)
  /-- The exception that `localStorage.setItem(STORAGE_KEY, text)` raises (quota exceeded,
  storage disabled); `none` when the text is written. -/
  setItemError : String → Option JsError
  /-- The exception that a part of the rendering raises in Leaflet or in the DOM; `none` when
  it completes. -/
  displayError : Display → Option JsError
  /-- The text `[]` parses to the empty array. -/
  jsonParse_emptyArray : jsonParse "[]" = some (.arr [])
  /-- The empty text is not a number: `parseFloat("")` is `NaN`. -/
  parseFloat_empty : parseFloat "" = .nan

/-- A `POST` request to `API_URL` with its form parameters. -/
structure Request where
  params : List (String × String)
  deriving DecidableEq

/-- The module state of the data layer, with the durable key and the log of requests sent. -/
structure AppState where
  /-- The record store `trees`. -/
  trees : JVal
  /-- The current selection `selectedId`. -/
  selectedId : JVal
  /-- The undo buffer `lastDeletedTree` (`null` when empty). -/
  lastDeletedTree : JVal
  /-- The content of `localStorage[STORAGE_KEY]`, `none` when the key is absent. -/
  storage : Option String
  /-- The `POST` requests issued so far, oldest first. -/
  sent : List Request
  deriving DecidableEq

/-- The messages shown with `alert`. -/
inductive Alert where
  | importDone
  | importImpossible (e : JsError)
  | locationMissing
  | treeUpdated
  | treeAdded
  deriving DecidableEq

/-- What a handler leaves behind: the state, the message shown, the exception that escaped. -/
structure Outcome where
  state : AppState
  alert : Option Alert
  raised : Option JsError
  deriving DecidableEq

/-- The state at start: empty store, no selection, empty undo buffer, no request sent. -/
def AppState.init (storage : Option String) : AppState :=
  { trees := .arr [], selectedId := .null, lastDeletedTree := .null, storage := storage,
    sent := [] }

/-- A handler that returns normally without a message. -/
def done (st : AppState) : Outcome :=
  { state := st, alert := none, raised := none }

/-- A handler that ends by an escaped exception. -/
def raise (st : AppState) (e : JsError) : Outcome :=
  { state := st, alert := none, raised := some e }

/-! ## Record store and local cache -/

/-- The search `xs.find((t) => t.id === id)`; reading `t.id` raises on a `null` element. -/
def findById : List JVal → JVal → Except JsError (Option JVal)
  | [], _ => .ok none
  | t :: rest, id =>
    match getProp t "id" with
    | .error e => .error e
    | .ok k => if strictEq k id then .ok (some t) else findById rest id

/-- The function `getTreeById(id)` (lines 95-97); `trees.find` is a `TypeError` when `trees` is
not an array. -/
def getTreeById (trees : JVal) (id : JVal) : Except JsError (Option JVal) :=
  match trees with
  | .arr xs => findById xs id
  | _ => .error .typeError

/-- The function `loadTrees()` (lines 99-105): `JSON.parse(localStorage.getItem(KEY) || "[]")`,
and `[]` when parsing raises. -/
def loadTrees (P : Platform) (stored : Option String) : JVal :=
  let text := match stored with
    | none => "[]"
    | some s => if s = "" then "[]" else s
  match P.jsonParse text with
  | some v => v
  | none => .arr []

/-- The function `saveTreesLocal()` (lines 107-109): the key is written unless `setItem`
raises. -/
def saveTreesLocal (P : Platform) (st : AppState) : Except JsError AppState :=
  match P.setItemError (P.jsonStringify st.trees) with
  | some e => .error e
  | none => .ok { st with storage := some (P.jsonStringify st.trees) }

/-- The function `addOrUpdateMarker(t)` (lines 574-603), as the exception it raises: reading
`t.species` raises on `null`; `(t.tags || []).slice(0, 3).join(", ")` raises when `tags` is
truthy and no array (the slice of a string has no `join`; numbers, booleans and objects have no
`slice`); the rest runs in Leaflet. -/
def addOrUpdateMarker (P : Platform) (t : JVal) : Option JsError :=
  match getProp t "species" with
  | .error e => some e
  | .ok _ =>
    match getProp t "tags" with
    | .error e => some e
    | .ok tags =>
      if truthy tags && !isArray tags then some .typeError
      else P.displayError (.marker t)

/-- The loop `for (const t of trees) addOrUpdateMarker(t)` of `renderMarkers()` (lines
613-617): the first exception raised. -/
def renderMarkers (P : Platform) : List JVal → Option JsError
  | [] => none
  | t :: rest =>
    match addOrUpdateMarker P t with
    | some e => some e
    | none => renderMarkers P rest

/-- The calls `renderMarkers(); renderList(); renderSecteurCount();` as the first exception
raised. A store that is a text is iterated character by character, like an array of its
characters; a store that is neither an array nor a text is not iterable, a `TypeError`. -/
def renderAll (P : Platform) (st : AppState) : Option JsError :=
  match P.displayError .clearMarkers with
  | some e => some e
  | none =>
    match st.trees with
    | .arr xs =>
      match renderMarkers P xs with
      | some e => some e
      | none => P.displayError (.list st.trees st.selectedId)
    | .str s =>
      match renderMarkers P (s.toList.map (fun c => .str (String.singleton c))) with
      | some e => some e
      | none => P.displayError (.list st.trees st.selectedId)
    | _ => some .typeError

/-- The function `setSelected(id)` (lines 537-569): the selection is assigned first, the form
is filled next. -/
def setSelected (P : Platform) (st : AppState) (id : JVal) : AppState × Option JsError :=
  ({ st with selectedId := id }, P.displayError (.form st.trees id))

/-- The function `persistAndRefresh(focusId)` (lines 111-117): the cache is written, the store
is rendered and a truthy `focusId` is selected; the state reached and the exception raised, if
any. -/
def persistAndRefresh (P : Platform) (st : AppState) (focusId : JVal) :
    AppState × Option JsError :=
  match saveTreesLocal P st with
  | .error e => (st, some e)
  | .ok st1 =>
    match renderAll P st1 with
    | some e => (st1, some e)
    | none => if truthy focusId then setSelected P st1 focusId else (st1, none)

/-! ## Remote sync client -/

mutual
/-- The conversion `String(v)` applied by `URLSearchParams.append`. -/
def toStr (P : Platform) : JVal → String
  | .undefined => "undefined"
  | .null => "null"
  | .bool true => "true"
  | .bool false => "false"
  | .num n => P.numToString n
  | .str s => s
  | .arr xs => joinComma P xs
  | .obj _ => "[object Object]"
/-- The method `xs.join(",")`: `null` and `undefined` elements give the empty string. -/
def joinComma (P : Platform) : List JVal → String
  | [] => ""
  | [x] => joinElem P x
  | x :: y :: rest => joinElem P x ++ "," ++ joinComma P (y :: rest)
/-- The text of one element in `join`. -/
def joinElem (P : Platform) : JVal → String
  | .undefined => ""
  | .null => ""
  | .bool true => "true"
  | .bool false => "false"
  | .num n => P.numToString n
  | .str s => s
  | .arr xs => joinComma P xs
  | .obj _ => "[object Object]"
end

/-- The own enumerable properties of a value, in the order in which `for (const key in v)` and
the spread `{ ...v }` visit them, each with `v[key]`: the properties of an object, the indexed
elements of an array or of a string, nothing for the other values. -/
def ownEntries : JVal → List (String × JVal)
  | .obj ps => ps
  | .arr xs => xs.enum.map (fun e => (toString e.1, e.2))
  | .str s => s.toList.enum.map (fun e => (toString e.1, .str (String.singleton e.2)))
  | _ => []

/-- The object literal `{ ...t }`. -/
def spreadObject (t : JVal) : JVal :=
  .obj (ownEntries t)

/-- The identifier `t` as `syncToSheets` sees it (line 128): neither the function nor the
enclosing module declares a `t` (the `t` of the handlers are local to them), so reading it is a
`ReferenceError`. -/
def freeVariableT : Except JsError JVal :=
  .error .referenceError

/-- The body of the loop of `syncToSheets` (lines 125-133) over the properties still to visit:
the parameters appended, or the exception raised. -/
def appendParams (P : Platform) :
    List (String × JVal) → List (String × String) → Except JsError (List (String × String))
  | [], params => .ok params
  | (key, field) :: rest, params =>
    let value := match field with
      | .arr xs => JVal.str (joinComma P xs)
      | v => v
    if key = "photos" then
      match freeVariableT with
      | .error e => .error e
      | .ok t =>
        match getProp t "photos" with
        | .error e => .error e
        | .ok ph =>
          appendParams P rest
            (params ++ [("photos", P.jsonStringify (if truthy ph then ph else .arr []))])
    else
      appendParams P rest
        (params ++ [(key, toStr P (if value = .null ∨ value = .undefined then .str "" else value))])

/-- The function `syncToSheets(treeObj)` (lines 122-138): the request is sent when the
parameters have been built; an exception is caught and logged, nothing is sent. -/
def syncToSheets (P : Platform) (treeObj : JVal) (st : AppState) : AppState :=
  match appendParams P (ownEntries treeObj) [] with
  | .error _ => st
  | .ok params => { st with sent := st.sent ++ [{ params := params }] }

/-- The function `deleteFromSheets(id)` (lines 140-149). -/
def deleteFromSheets (P : Platform) (id : JVal) (st : AppState) : AppState :=
  { st with sent := st.sent ++ [{ params := [("action", "delete"), ("id", toStr P id)] }] }

/-- The outcome of `fetch(API_URL)` followed by `res.json()`. -/
inductive FetchResult where
  /-- The promise of `fetch` rejects. -/
  | networkError
  /-- A response with its `ok` flag and the value of `res.json()`, `none` when that rejects. -/
  | response (ok : Bool) (body : Option JVal)

/-- The function `loadTreesFromSheets()` (lines 915-931): every exception of the `try`, the one
of `saveTreesLocal()` included, reaches the `catch`, which sets `trees = loadTrees()`. -/
def loadTreesFromSheets (P : Platform) (st : AppState) (r : FetchResult) : Outcome :=
  let fallback : Outcome := done { st with trees := loadTrees P st.storage }
  match r with
  | .networkError => fallback
  | .response ok body =>
    if !ok then fallback
    else
      match body with
      | none => fallback
      | some data =>
        if !isArray data then fallback
        else
          match saveTreesLocal P { st with trees := data } with
          | .error _ => fallback
          | .ok st1 => done st1

/-! ## Import -/

/-- The import once the file is parsed (lines 763-775): `data` is the value of
`JSON.parse(text)`. The `try` also holds `persistAndRefresh()`: an exception raised there, after
`trees` is reassigned, is caught and shown as a failed import. -/
def importData (P : Platform) (st : AppState) (data : JVal) : Outcome :=
  let failed (e : JsError) : Outcome :=
    { state := st, alert := some (.importImpossible e), raised := none }
  match (if isArray data then Except.ok data else getProp data "trees") with
  | .error e => failed e
  | .ok (.arr incoming) =>
    match st.trees with
    | .arr current =>
      match mergeTrees current incoming with
      | .error e => failed e
      | .ok merged =>
        match persistAndRefresh P { st with trees := .arr merged } st.selectedId with
        | (st1, some e) => { state := st1, alert := some (.importImpossible e), raised := none }
        | (st1, none) => { state := st1, alert := some .importDone, raised := none }
    | _ => failed .typeError
  | .ok _ => failed (.error "Format JSON inattendu.")

/-- The handler `importFile().onchange` (lines 756-779) on the text of the chosen file. -/
def importOnchange (P : Platform) (st : AppState) (text : String) : Outcome :=
  match P.jsonParse text with
  | none => { state := st, alert := some (.importImpossible .syntaxError), raised := none }
  | some data => importData P st data

/-! ## Delete and undo -/

/-- The filter `xs.filter(x => x.id !== id)`; reading `x.id` raises on a `null` element. -/
def filterOthers : List JVal → JVal → Except JsError (List JVal)
  | [], _ => .ok []
  | x :: rest, id =>
    match getProp x "id" with
    | .error e => .error e
    | .ok k =>
      match filterOthers rest id with
      | .error e => .error e
      | .ok out => if !strictEq k id then .ok (x :: out) else .ok out

/-- The handler `deleteBtn().onclick` (lines 792-820); `confirmed` is the answer to `confirm`. -/
def deleteClick (P : Platform) (st : AppState) (confirmed : Bool) : Outcome :=
  if !truthy st.selectedId then done st
  else if !confirmed then done st
  else
    match getTreeById st.trees st.selectedId with
    | .error e => raise st e
    | .ok none => done st
    | .ok (some t) =>
      let st1 := { st with lastDeletedTree := spreadObject t }
      match getProp t "id" with
      | .error e => raise st1 e
      | .ok tid =>
        let st2 := deleteFromSheets P tid st1
        match st2.trees with
        | .arr xs =>
          match filterOthers xs tid with
          | .error e => raise st2 e
          | .ok rest =>
            let st3 := { st2 with trees := .arr rest }
            match P.displayError (.removeMarker tid) with
            | some e => raise st3 e
            | none =>
              let st4 := { st3 with selectedId := .null }
              match saveTreesLocal P st4 with
              | .error e => raise st4 e
              | .ok st5 =>
                match renderAll P st5 with
                | some e => raise st5 e
                | none =>
                  match (setSelected P st5 .null).2 with
                  | some e => raise st5 e
                  | none => done st5
        | _ => raise st2 .typeError

/-- The handler `undoBtn.onclick` (lines 823-842). -/
def undoClick (P : Platform) (st : AppState) : Outcome :=
  if !truthy st.lastDeletedTree then done st
  else
    let t := st.lastDeletedTree
    let st1 := { st with lastDeletedTree := .null }
    match st1.trees with
    | .arr xs =>
      let st2 := { st1 with trees := .arr (t :: xs) }
      match saveTreesLocal P st2 with
      | .error e => raise st2 e
      | .ok st3 =>
        match renderAll P st3 with
        | some e => raise st3 e
        | none =>
          match getProp t "id" with
          | .error e => raise st3 e
          | .ok tid =>
            match setSelected P st3 tid with
            | (st4, some e) => raise st4 e
            | (st4, none) => done (syncToSheets P t st4)
    | _ => raise st1 .typeError

/-! ## Save -/

/-- A file chosen in the photo input, as `readFilesAsDataUrls` sees it. -/
structure FileInput where
  name : String
  type : String
  size : Nat
  /-- The value of `Date.now()` once the file is read. -/
  addedAt : Nat
  /-- The data URL produced by the reader, `none` when the reader reports an error. -/
  dataUrl : Option String

/-- The form and the readings that `saveBtn().onclick` consumes. -/
structure Form where
  lat : String
  lng : String
  species : String
  height : String
  dbh : String
  secteur : String
  address : String
  tags : String
  comment : String
  /-- The files of the photo input. -/
  files : List FileInput
  /-- The value of `uid()`. -/
  uid : String
  /-- The values of the first and of the second `Date.now()` of the handler. -/
  now : Nat
  nowAgain : Nat

/-- A natural number as a JavaScript number. -/
def natNum (n : Nat) : JVal :=
  .num (.fin (n : ℚ))

/-- The function `readFilesAsDataUrls(files)` (lines 354-372); it rejects at the first file
that cannot be read. -/
def readFilesAsDataUrls : List FileInput → Except JsError (List JVal)
  | [] => .ok []
  | f :: rest =>
    match f.dataUrl with
    | none => .error (.error "Lecture fichier impossible")
    | some url =>
      match readFilesAsDataUrls rest with
      | .error e => .error e
      | .ok out =>
        .ok (.obj [("name", .str f.name), ("type", .str f.type), ("size", natNum f.size),
          ("addedAt", natNum f.addedAt), ("dataUrl", .str url)] :: out)

/-- The function `getQuartierFromLatLng(lat, lng)` (lines 619-628). -/
def getQuartierFromLatLng (P : Platform) (lat lng : JNum) : JVal :=
  match P.pointInLayer with
  | none => .str "Inconnu"
  | some pointInLayer =>
    match pointInLayer lng lat with
    | [] => .str "Inconnu"
    | name :: _ => if truthy name then name else .str "Inconnu"

/-- The expression `el.value === "" ? null : Number(el.value)`. -/
def numberOrNull (P : Platform) (text : String) : JVal :=
  if text = "" then .null else .num (P.toNumber text)

/-- The assignment `t.k = v` on a record (a record found by its id is an object). -/
def assign (t : JVal) (k : String) (v : JVal) : JVal :=
  match t with
  | .obj ps => .obj (setField ps k v)
  | other => other

/-- The elements that the spread `...v` yields inside an array literal; a `TypeError` on a value
that is not iterable. -/
def spreadArray : JVal → Except JsError (List JVal)
  | .arr xs => .ok xs
  | .str s => .ok (s.toList.map (fun c => .str (String.singleton c)))
  | _ => .error .typeError

/-- The assignments of the update branch before `t.photos` (lines 866-876). -/
def overwriteFields (P : Platform) (f : Form) (lat lng : JNum) (quartier : JVal) (t : JVal) :
    JVal :=
  let t := assign t "lat" (.num lat)
  let t := assign t "lng" (.num lng)
  let t := assign t "quartier" quartier
  let t := assign t "species" (.str (jsTrim f.species))
  let t := assign t "height" (numberOrNull P f.height)
  let t := assign t "dbh" (numberOrNull P f.dbh)
  let t := assign t "secteur" (.str f.secteur)
  let t := assign t "address" (.str (jsTrim f.address))
  let t := assign t "tags" (.arr ((normalizeTags (some f.tags)).map JVal.str))
  let t := assign t "comment" (.str (jsTrim f.comment))
  assign t "updatedAt" (natNum f.now)

/-- The record built by the create branch (lines 888-903). -/
def newTree (P : Platform) (f : Form) (lat lng : JNum) (quartier : JVal) (photos : List JVal) :
    JVal :=
  .obj [("id", .str f.uid), ("lat", .num lat), ("lng", .num lng), ("quartier", quartier),
    ("species", .str (jsTrim f.species)), ("height", numberOrNull P f.height),
    ("dbh", numberOrNull P f.dbh), ("secteur", .str f.secteur),
    ("address", .str (jsTrim f.address)),
    ("tags", .arr ((normalizeTags (some f.tags)).map JVal.str)),
    ("comment", .str (jsTrim f.comment)), ("photos", .arr photos),
    ("createdAt", natNum f.now), ("updatedAt", natNum f.nowAgain)]

/-- The position of the first element of `xs` with `t.id === id`, as `findById` finds it. -/
def findIndexById : List JVal → JVal → Except JsError (Option Nat)
  | [], _ => .ok none
  | t :: rest, id =>
    match getProp t "id" with
    | .error e => .error e
    | .ok k =>
      if strictEq k id then .ok (some 0)
      else
        match findIndexById rest id with
        | .error e => .error e
        | .ok none => .ok none
        | .ok (some i) => .ok (some (i + 1))

/-- The update branch of the save handler (lines 861-885): the record found by
`getTreeById(selectedId)` is modified in place, at its position in the store. -/
def saveUpdate (P : Platform) (st : AppState) (f : Form) (lat lng : JNum) (quartier : JVal)
    (photos : List JVal) : Outcome :=
  match st.trees with
  | .arr xs =>
    match findIndexById xs st.selectedId with
    | .error e => raise st e
    | .ok none => done st
    | .ok (some i) =>
      let t := overwriteFields P f lat lng quartier (xs.getD i .undefined)
      match getProp t "photos" with
      | .error e => raise { st with trees := .arr (xs.set i t) } e
      | .ok old =>
        match spreadArray (if truthy old then old else .arr []) with
        | .error e => raise { st with trees := .arr (xs.set i t) } e
        | .ok oldPhotos =>
          let t := assign t "photos" (.arr (oldPhotos ++ photos))
          let st1 := syncToSheets P t { st with trees := .arr (xs.set i t) }
          match getProp t "id" with
          | .error e => raise st1 e
          | .ok tid =>
            match persistAndRefresh P st1 (if tid = .undefined then st1.selectedId else tid) with
            | (st2, some e) => raise st2 e
            | (st2, none) => { state := st2, alert := some .treeUpdated, raised := none }
  | _ => raise st .typeError

/-- The create branch of the save handler (lines 887-912). -/
def saveCreate (P : Platform) (st : AppState) (f : Form) (lat lng : JNum) (quartier : JVal)
    (photos : List JVal) : Outcome :=
  let t := newTree P f lat lng quartier photos
  let st1 := syncToSheets P t st
  match st1.trees with
  | .arr xs =>
    match persistAndRefresh P { st1 with trees := .arr (t :: xs) } (.str f.uid) with
    | (st2, some e) => raise st2 e
    | (st2, none) => { state := st2, alert := some .treeAdded, raised := none }
  | _ => raise st1 .typeError

/-- The handler `saveBtn().onclick` (lines 846-913). -/
def saveClick (P : Platform) (st : AppState) (f : Form) : Outcome :=
  let lat := P.parseFloat f.lat
  let lng := P.parseFloat f.lng
  if !lat.isFinite || !lng.isFinite then
    { state := st, alert := some .locationMissing, raised := none }
  else
    let quartier := getQuartierFromLatLng P lat lng
    match readFilesAsDataUrls f.files with
    | .error e => raise st e
    | .ok photos =>
      if truthy st.selectedId then saveUpdate P st f lat lng quartier photos
      else saveCreate P st f lat lng quartier photos

/-! ## Sessions -/

/-- The user actions of the data layer. -/
inductive Action where
  /-- A click on a list item or a marker (`setSelected(id)`), or, with `null`, a click on the
  map or on the new button (`selectedId = null`). -/
  | select (id : JVal)
  /-- A click on the save button with the form as filled. -/
  | save (f : Form)
  /-- A click on the delete button and the answer to the confirmation. -/
  | delete (confirmed : Bool)
  /-- A click on the undo button. -/
  | undo
  /-- The import of a file whose text parses to `data`. -/
  | importJson (data : JVal)

/-- The state after one action. -/
def step (P : Platform) (st : AppState) : Action → AppState
  | .select id => { st with selectedId := id }
  | .save f => (saveClick P st f).state
  | .delete confirmed => (deleteClick P st confirmed).state
  | .undo => (undoClick P st).state
  | .importJson data => (importData P st data).state

/-- The state after a sequence of actions. -/
def run (P : Platform) (st : AppState) (actions : List Action) : AppState :=
  actions.foldl (step P) st

/-! ## Vocabulary of the properties -/

/-- The id of a store entry: the value of `t.id`, `undefined` where there is none. -/
def idOf (v : JVal) : JVal :=
  match getProp v "id" with
  | .ok k => k
  | .error _ => .undefined

/-- A collection of records: no entry is `null` or `undefined`. -/
def Records (S : List JVal) : Prop :=
  ∀ x ∈ S, x ≠ .null ∧ x ≠ .undefined

/-- The ids of a collection are pairwise distinct. -/
def DistinctIds (S : List JVal) : Prop :=
  (S.map idOf).Nodup

/-- The store of a state is an array of records with pairwise distinct ids. -/
def StoreOk (st : AppState) : Prop :=
  ∃ S, st.trees = .arr S ∧ Records S ∧ DistinctIds S

instance (S : List JVal) : Decidable (Records S) :=
  inferInstanceAs (Decidable (∀ x ∈ S, x ≠ .null ∧ x ≠ .undefined))

instance (S : List JVal) : Decidable (DistinctIds S) :=
  inferInstanceAs (Decidable (S.map idOf).Nodup)

/-- A platform on which the handlers are evaluated on concrete inputs: `JSON.parse` knows the
texts `[]` and `null`, `JSON.stringify` writes a fixed text, numbers are not read from text and
print as `0`, the zone layer is not loaded, the storage accepts every write and Leaflet and the
DOM raise nothing. -/
def samplePlatform : Platform where
  jsonParse := fun s => if s = "[]" then some (.arr []) else if s = "null" then some .null else none
  jsonStringify := fun _ => "[]"
  parseFloat := fun _ => .nan
  toNumber := fun _ => .nan
  numToString := fun _ => "0"
  pointInLayer := none
  setItemError := fun _ => none
  displayError := fun _ => none
  jsonParse_emptyArray := by decide
  parseFloat_empty := rfl

/-- A record with an id and a species. -/
def sampleTree (id species : String) : JVal :=
  .obj [("id", .str id), ("species", .str species)]

/-! ## Form filling and HTML escaping -/

/-- The method `xs.join(sep)`: `null` and `undefined` elements give the empty string. -/
def joinWith (P : Platform) (sep : String) : List JVal → String
  | [] => ""
  | [x] => joinElem P x
  | x :: y :: rest => joinElem P x ++ sep ++ joinWith P sep (y :: rest)

/-- The text that `setSelected` puts in the tags field (line 564): `(t.tags || []).join(", ")`;
a truthy `tags` that is no array has no `join`, a `TypeError`. -/
def tagsFieldText (P : Platform) (t : JVal) : Except JsError String :=
  match getProp t "tags" with
  | .error e => .error e
  | .ok tags =>
    match (if truthy tags then tags else JVal.arr []) with
    | .arr xs => .ok (joinWith P ", " xs)
    | _ => .error .typeError

/-- The method `s.replaceAll(c, rep)` for a pattern of one character, on the characters of the
string: every occurrence of `c`, from left to right, gives `rep`. -/
def replaceAllChar : List Char → Char → List Char → List Char
  | [], _, _ => []
  | x :: xs, c, rep => (if x = c then rep else [x]) ++ replaceAllChar xs c rep

/-- The double quote. -/
def doubleQuote : Char := Char.ofNat 34

/-- The single quote. -/
def singleQuote : Char := Char.ofNat 39

/-- The chain of `replaceAll` of `escapeHtml` (lines 88-92) on the characters of a string. -/
def escapeChars (cs : List Char) : List Char :=
  replaceAllChar
    (replaceAllChar
      (replaceAllChar
        (replaceAllChar (replaceAllChar cs '&' "&amp;".toList) '<' "&lt;".toList)
        '>' "&gt;".toList)
      doubleQuote "&quot;".toList)
    singleQuote "&#039;".toList

/-- The function `escapeHtml(str)` (lines 85-93): `(str ?? "").toString()` and the chain of
`replaceAll`. -/
def escapeHtml (P : Platform) (str : JVal) : String :=
  String.mk (escapeChars
    (toStr P (if str = .null ∨ str = .undefined then JVal.str "" else str)).toList)

/-! ## Vocabulary of the later properties -/

/-- The elements of `[...(t.photos || [])]`: the photos that a record holds before an update. -/
def previousPhotos (t : JVal) : Except JsError (List JVal) :=
  match getProp t "photos" with
  | .error e => .error e
  | .ok old => spreadArray (if truthy old then old else .arr [])

/-- The properties that the update branch of the save handler assigns. -/
def formKeys : List String :=
  ["lat", "lng", "quartier", "species", "height", "dbh", "secteur", "address", "tags", "comment",
    "updatedAt", "photos"]

/-- Following the words of the specification of `tags`: split the text at commas, trim each
piece, drop the empty pieces, with the list operations of the library. -/
def splitTrimDrop (cs : List Char) : List (List Char) :=
  ((cs.splitOn ',').map (fun p => (p.dropWhile isJsSpace).rdropWhile isJsSpace)).filter
    (fun p => decide (p ≠ []))

/-- A normalised tag: non-empty, neither starting nor ending with a white space character,
without comma. -/
def NormalTag (t : String) : Prop :=
  t ≠ "" ∧ (∀ c, t.toList.head? = some c → isJsSpace c = false) ∧
    (∀ c, t.toList.getLast? = some c → isJsSpace c = false) ∧ ',' ∉ t.toList

/-- The replacement of one escaped character of a text. -/
def escapeChar (c : Char) : List Char :=
  if c = '&' then "&amp;".toList
  else if c = '<' then "&lt;".toList
  else if c = '>' then "&gt;".toList
  else if c = doubleQuote then "&quot;".toList
  else if c = singleQuote then "&#039;".toList
  else [c]

/-- The five entities that `escapeHtml` writes. -/
def entities : List (List Char) :=
  ["&amp;".toList, "&lt;".toList, "&gt;".toList, "&quot;".toList, "&#039;".toList]

/-- What follows `body` at the start of `text`, `none` when `text` does not start with
`body`. -/
def afterBody : List Char → List Char → Option (List Char)
  | [], text => some text
  | _ :: _, [] => none
  | b :: bs, d :: ds => if b = d then afterBody bs ds else none

/-- One step of the decoding: the character `c` in front of the decoded text `done`; an `&`
in front of the rest of an entity gives the character of the entity. -/
def decodeHead (c : Char) (done : List Char) : List Char :=
  if c = '&' then
    match afterBody "amp;".toList done with
    | some tail => '&' :: tail
    | none =>
      match afterBody "lt;".toList done with
      | some tail => '<' :: tail
      | none =>
        match afterBody "gt;".toList done with
        | some tail => '>' :: tail
        | none =>
          match afterBody "quot;".toList done with
          | some tail => doubleQuote :: tail
          | none =>
            match afterBody "#039;".toList done with
            | some tail => singleQuote :: tail
            | none => c :: done
  else c :: done

/-- The replacement of the five entities of a text by their characters: every `&` that starts
an entity is replaced, with the rest of the entity, by the character that the entity names. -/
def unescapeChars : List Char → List Char
  | [] => []
  | c :: rest => decodeHead c (unescapeChars rest)

/-- A reader of numerals for the evaluation on concrete inputs: the number written by the
leading decimal digits of the text, `NaN` when there is none (exact on the texts that are
unsigned integer numerals). -/
def readNumeral (s : String) : JNum :=
  match s.toList.takeWhile Char.isDigit with
  | [] => .nan
  | ds => .fin ((ds.foldl (fun n c => 10 * n + (c.toNat - 48)) 0 : Nat) : ℚ)

/-- The platform `samplePlatform` with `parseFloat` and `Number` reading unsigned integer
numerals (`Number` of the empty text is `0`). -/
def numeralPlatform : Platform where
  jsonParse := samplePlatform.jsonParse
  jsonStringify := samplePlatform.jsonStringify
  parseFloat := readNumeral
  toNumber := fun s => if s = "" then .fin 0 else readNumeral s
  numToString := samplePlatform.numToString
  pointInLayer := none
  setItemError := fun _ => none
  displayError := fun _ => none
  jsonParse_emptyArray := by decide
  parseFloat_empty := by decide

/-- A platform whose storage refuses every write: `localStorage.setItem` raises (the quota is
exceeded, or the storage is disabled); the rest is `samplePlatform`. -/
def fullStoragePlatform : Platform where
  jsonParse := samplePlatform.jsonParse
  jsonStringify := samplePlatform.jsonStringify
  parseFloat := samplePlatform.parseFloat
  toNumber := samplePlatform.toNumber
  numToString := samplePlatform.numToString
  pointInLayer := none
  setItemError := fun _ => some (.error "QuotaExceededError")
  displayError := fun _ => none
  jsonParse_emptyArray := by decide
  parseFloat_empty := rfl

/-- A record with coordinates, a species and an array of tags. -/
def sampleTreeOnMap (id : String) : JVal :=
  .obj [("id", .str id), ("lat", .num (.fin 50)), ("lng", .num (.fin 3)),
    ("species", .str "Chêne"), ("tags", .arr [.str "x"])]

/-- A record whose tags are a text, as a file written by hand may hold it. -/
def sampleTreeWithTextTags : JVal :=
  .obj [("id", .str "a"), ("lat", .num (.fin 50)), ("lng", .num (.fin 3)),
    ("tags", .str "x,y")]

/-- A photo file of ten bytes, read at time `2`; `dataUrl` is what the reader produces. -/
def sampleFile (dataUrl : Option String) : FileInput :=
  { name := "p.jpg", type := "image/jpeg", size := 10, addedAt := 2, dataUrl := dataUrl }

/-- A form with the coordinates `50` and `3`, the species `Chêne`, the tags `a, b` and the
photo files `files`. -/
def sampleForm (files : List FileInput) : Form :=
  { lat := "50", lng := "3", species := "Chêne", height := "", dbh := "", secteur := "",
    address := "", tags := "a, b", comment := "", files := files, uid := "u1", now := 1,
    nowAgain := 1 }

/-- The entry of `photos` that `readFilesAsDataUrls` builds for `sampleFile (some url)`. -/
def samplePhoto (url : String) : JVal :=
  .obj [("name", .str "p.jpg"), ("type", .str "image/jpeg"), ("size", natNum 10),
    ("addedAt", natNum 2), ("dataUrl", .str url)]

/-- A record with an id, a species, a creation time and one photo. -/
def sampleTreeWithPhoto (id species : String) : JVal :=
  .obj [("id", .str id), ("species", .str species), ("createdAt", natNum 7),
    ("photos", .arr [samplePhoto "data:0"])]

/-! ## Lemmas on values and on the map of the import -/

theorem getProp_id_of_ne (t : JVal) (h : t ≠ .null ∧ t ≠ .undefined) :
    getProp t "id" = .ok (idOf t) := by
  cases t <;> simp_all [getProp, idOf]

theorem sameValueZero_iff (a b : JVal) : sameValueZero a b = true ↔ a = b := by
  simp [sameValueZero]

theorem truthy_ne_nan (k : JVal) (h : truthy k = true) : k ≠ .num .nan := by
  intro e
  subst e
  simp [truthy] at h

theorem strictEq_of_truthy (a k : JVal) (h : truthy k = true) :
    strictEq a k = decide (a = k) := by
  by_cases e : a = k
  · subst e
    simp [strictEq, truthy_ne_nan a h]
  · simp [strictEq, e]

theorem truthy_id_isObj (t k : JVal) (hk : getProp t "id" = .ok k) (h : truthy k = true) :
    ∃ ps, t = .obj ps := by
  cases t <;> simp [getProp] at hk <;>
    first
      | exact ⟨_, rfl⟩
      | (subst hk; simp [truthy] at h)

theorem idEntries_of_records (S : List JVal) (h : Records S) :
    idEntries S = .ok (S.map (fun t => (idOf t, t))) := by
  induction S with
  | nil => rfl
  | cons t rest ih =>
    have ht := h t (List.mem_cons_self _ _)
    have hrest : Records rest := fun x hx => h x (List.mem_cons_of_mem _ hx)
    simp [idEntries, getProp_id_of_ne t ht, ih hrest]

theorem mapSet_of_not_mem (m : JsMap) (k v : JVal) (h : ∀ e ∈ m, e.1 ≠ k) :
    mapSet m k v = m ++ [(k, v)] := by
  induction m with
  | nil => rfl
  | cons e rest ih =>
    obtain ⟨k', v'⟩ := e
    have hk : k' ≠ k := h (k', v') (List.mem_cons_self _ _)
    have hrest : ∀ e ∈ rest, e.1 ≠ k := fun e he => h e (List.mem_cons_of_mem _ he)
    simp [mapSet, sameValueZero, hk, ih hrest]

theorem foldl_mapSet_of_nodup (es : List (JVal × JVal)) (m : JsMap)
    (h : ((m ++ es).map Prod.fst).Nodup) :
    es.foldl (fun m e => mapSet m e.1 e.2) m = m ++ es := by
  induction es generalizing m with
  | nil => simp
  | cons e rest ih =>
    have hnot : ∀ x ∈ m, x.1 ≠ e.1 := by
      intro x hx heq
      rw [List.map_append, List.nodup_append] at h
      exact h.2.2 (List.mem_map_of_mem Prod.fst hx)
        (by rw [heq]; exact List.mem_map_of_mem Prod.fst (List.mem_cons_self _ _))
    rw [List.foldl_cons, mapSet_of_not_mem m e.1 e.2 hnot]
    have h2 : (((m ++ [(e.1, e.2)]) ++ rest).map Prod.fst).Nodup := by
      simpa using h
    rw [ih _ h2]
    simp

theorem newMap_of_nodup (es : List (JVal × JVal)) (h : (es.map Prod.fst).Nodup) :
    newMap es = es := by
  have := foldl_mapSet_of_nodup es [] (by simpa using h)
  simpa [newMap] using this

theorem entries_keys (S : List JVal) :
    (S.map (fun t => (idOf t, t))).map Prod.fst = S.map idOf := by
  simp [List.map_map, Function.comp_def]

theorem entries_values (S : List JVal) :
    (S.map (fun t => (idOf t, t))).map Prod.snd = S := by
  simp [List.map_map, Function.comp_def]

theorem mapSet_entries_at (S : List JVal) (i : Nat) (k v : JVal) (hn : DistinctIds S)
    (hi : i < S.length) (hk : idOf S[i] = k) :
    (mapSet (S.map (fun t => (idOf t, t))) k v).map Prod.snd = S.set i v := by
  induction S generalizing i with
  | nil => simp at hi
  | cons t rest ih =>
    have hn2 : (idOf t ∉ rest.map idOf) ∧ DistinctIds rest := by
      simpa [DistinctIds] using hn
    cases i with
    | zero =>
      simp only [List.getElem_cons_zero] at hk
      simp [mapSet, sameValueZero, hk, Function.comp_def]
    | succ j =>
      simp only [List.getElem_cons_succ] at hk
      have hj : j < rest.length := by simpa using hi
      have hne : idOf t ≠ k := by
        intro e
        apply hn2.1
        rw [e, ← hk]
        exact List.mem_map_of_mem idOf (List.getElem_mem _)
      simp [mapSet, sameValueZero, hne, ih j hn2.2 hj hk]

theorem mapSet_of_mem (m : JsMap) (k v : JVal) (hn : (m.map Prod.fst).Nodup)
    (h : (k, v) ∈ m) : mapSet m k v = m := by
  induction m with
  | nil => simp at h
  | cons e rest ih =>
    obtain ⟨k', v'⟩ := e
    have hn2 : (k' ∉ rest.map Prod.fst) ∧ (rest.map Prod.fst).Nodup := by
      simpa using hn
    by_cases hk : k' = k
    · subst hk
      have hv : v' = v := by
        rcases List.mem_cons.1 h with e | hmem
        · exact (Prod.mk.inj e).2.symm
        · exact absurd (List.mem_map_of_mem Prod.fst hmem) hn2.1
      simp [mapSet, sameValueZero, hv]
    · have hmem : (k, v) ∈ rest := by
        rcases List.mem_cons.1 h with e | hmem
        · exact absurd (Prod.mk.inj e).1.symm hk
        · exact hmem
      simp [mapSet, sameValueZero, hk, ih hn2.2 hmem]

theorem saveTreesLocal_frame (P : Platform) (st st1 : AppState)
    (h : saveTreesLocal P st = .ok st1) :
    st1 = { st with storage := some (P.jsonStringify st.trees) } := by
  unfold saveTreesLocal at h
  split at h
  · cases h
  · exact (Except.ok.inj h).symm

theorem persistAndRefresh_frame (P : Platform) (st : AppState) (focusId : JVal) :
    (persistAndRefresh P st focusId).1.trees = st.trees ∧
      (persistAndRefresh P st focusId).1.lastDeletedTree = st.lastDeletedTree ∧
      (persistAndRefresh P st focusId).1.sent = st.sent := by
  unfold persistAndRefresh
  split
  · exact ⟨rfl, rfl, rfl⟩
  · rename_i st1 h1
    rw [saveTreesLocal_frame P st st1 h1]
    split
    · exact ⟨rfl, rfl, rfl⟩
    · split <;> exact ⟨rfl, rfl, rfl⟩

theorem persistAndRefresh_trees (P : Platform) (st : AppState) (focusId : JVal) :
    (persistAndRefresh P st focusId).1.trees = st.trees :=
  (persistAndRefresh_frame P st focusId).1

theorem persistAndRefresh_eq (P : Platform) (st : AppState) (focusId : JVal) (st1 : AppState)
    (o : Option JsError) (h : persistAndRefresh P st focusId = (st1, o)) :
    st1.trees = st.trees ∧ st1.lastDeletedTree = st.lastDeletedTree ∧ st1.sent = st.sent := by
  have hframe := persistAndRefresh_frame P st focusId
  rw [h] at hframe
  exact hframe

theorem foldl_fixed {α β : Type} (f : β → α → β) (m : β) (L : List α)
    (h : ∀ t ∈ L, f m t = m) : L.foldl f m = m := by
  induction L with
  | nil => rfl
  | cons t rest ih =>
    rw [List.foldl_cons, h t (List.mem_cons_self _ _)]
    exact ih (fun x hx => h x (List.mem_cons_of_mem _ hx))

theorem mergeStep_of_truthy_id (m : JsMap) (t k : JVal) (hid : getProp t "id" = .ok k)
    (hne : truthy k = true) : mergeStep m t = mapSet m k t := by
  obtain ⟨ps, rfl⟩ := truthy_id_isObj t k hid hne
  have ht : truthy (.obj ps) = true := rfl
  simp [mergeStep, ht, hid, hne]

theorem mergeStep_entries_self (S : List JVal) (hrec : Records S) (hdist : DistinctIds S)
    (t : JVal) (ht : t ∈ S) :
    mergeStep (S.map (fun t => (idOf t, t))) t = S.map (fun t => (idOf t, t)) := by
  have hid := getProp_id_of_ne t (hrec t ht)
  unfold mergeStep
  split
  · rfl
  · rw [hid]
    simp only
    split
    · rfl
    · apply mapSet_of_mem
      · rw [entries_keys]
        exact hdist
      · exact List.mem_map_of_mem (fun t => (idOf t, t)) ht

theorem mergeTrees_single (S : List JVal) (r' k : JVal) (i : Nat) (hrec : Records S)
    (hdist : DistinctIds S) (hi : i < S.length) (hid : getProp r' "id" = .ok k)
    (hne : truthy k = true) (hsame : idOf S[i] = k) :
    mergeTrees S [r'] = .ok (S.set i r') := by
  have hkeys : ((S.map (fun t => (idOf t, t))).map Prod.fst).Nodup := by
    rw [entries_keys]
    exact hdist
  simp only [mergeTrees, idEntries_of_records S hrec, newMap_of_nodup _ hkeys, List.foldl_cons,
    List.foldl_nil, mergeStep_of_truthy_id _ r' k hid hne]
  rw [mapSet_entries_at S i k r' hdist hi hsame]

theorem mergeTrees_self (S : List JVal) (hrec : Records S) (hdist : DistinctIds S) :
    mergeTrees S S = .ok S := by
  have hkeys : ((S.map (fun t => (idOf t, t))).map Prod.fst).Nodup := by
    rw [entries_keys]
    exact hdist
  simp only [mergeTrees, idEntries_of_records S hrec, newMap_of_nodup _ hkeys]
  rw [foldl_fixed mergeStep _ S (mergeStep_entries_self S hrec hdist), entries_values]

theorem importData_array (P : Platform) (st : AppState) (current incoming merged : List JVal)
    (hst : st.trees = .arr current) (hm : mergeTrees current incoming = .ok merged) :
    (importData P st (.arr incoming)).state
        = (persistAndRefresh P { st with trees := .arr merged } st.selectedId).1 ∧
      (importData P st (.arr incoming)).raised = none ∧
      (importData P st (.arr incoming)).alert
        = some (match (persistAndRefresh P { st with trees := .arr merged } st.selectedId).2 with
          | some e => .importImpossible e
          | none => .importDone) := by
  simp only [importData, isArray, hst, hm, if_true]
  split <;> rename_i h <;> simp [h]

theorem importData_array_trees (P : Platform) (st : AppState)
    (current incoming merged : List JVal) (hst : st.trees = .arr current)
    (hm : mergeTrees current incoming = .ok merged) :
    (importData P st (.arr incoming)).state.trees = .arr merged ∧
      (importData P st (.arr incoming)).state.lastDeletedTree = st.lastDeletedTree := by
  rw [(importData_array P st current incoming merged hst hm).1]
  exact ⟨(persistAndRefresh_frame P _ _).1, (persistAndRefresh_frame P _ _).2.1⟩

theorem mapSet_mem (m : JsMap) (k v : JVal) (e : JVal × JVal) (h : e ∈ mapSet m k v) :
    e ∈ m ∨ e = (k, v) := by
  induction m with
  | nil =>
    simp only [mapSet, List.mem_singleton] at h
    exact Or.inr h
  | cons e0 rest ih =>
    obtain ⟨k0, v0⟩ := e0
    by_cases hk : k0 = k
    · subst hk
      simp only [mapSet, sameValueZero, decide_True, if_true, List.mem_cons] at h
      rcases h with h | h
      · exact Or.inr h
      · exact Or.inl (List.mem_cons_of_mem _ h)
    · simp only [mapSet, sameValueZero, hk, decide_False, if_false, Bool.false_eq_true,
        List.mem_cons] at h
      rcases h with h | h
      · exact Or.inl (h ▸ List.mem_cons_self _ _)
      · rcases ih h with h | h
        · exact Or.inl (List.mem_cons_of_mem _ h)
        · exact Or.inr h

theorem mapSet_keys_nodup (m : JsMap) (k v : JVal) (h : (m.map Prod.fst).Nodup) :
    ((mapSet m k v).map Prod.fst).Nodup := by
  induction m with
  | nil => simp [mapSet]
  | cons e0 rest ih =>
    obtain ⟨k0, v0⟩ := e0
    have h2 : (k0 ∉ rest.map Prod.fst) ∧ (rest.map Prod.fst).Nodup := by
      simpa using h
    by_cases hk : k0 = k
    · subst hk
      simpa [mapSet, sameValueZero] using h
    · simp only [mapSet, sameValueZero, hk, decide_False, if_false, Bool.false_eq_true,
        List.map_cons, List.nodup_cons]
      refine ⟨?_, ih h2.2⟩
      intro hmem
      obtain ⟨e, he, hfst⟩ := List.mem_map.1 hmem
      rcases mapSet_mem rest k v e he with h | h
      · exact h2.1 (hfst ▸ List.mem_map_of_mem Prod.fst h)
      · rw [h] at hfst
        exact hk hfst.symm

theorem mergeStep_inv (m : JsMap) (t : JVal) (hn : (m.map Prod.fst).Nodup)
    (hv : ∀ e ∈ m, idOf e.2 = e.1 ∧ e.2 ≠ .null ∧ e.2 ≠ .undefined) :
    ((mergeStep m t).map Prod.fst).Nodup ∧
      ∀ e ∈ mergeStep m t, idOf e.2 = e.1 ∧ e.2 ≠ .null ∧ e.2 ≠ .undefined := by
  unfold mergeStep
  split
  · exact ⟨hn, hv⟩
  · rename_i ht
    have htt : truthy t = true := by simpa using ht
    have hnn : t ≠ .null ∧ t ≠ .undefined := by
      cases t <;> simp_all [truthy]
    rw [getProp_id_of_ne t hnn]
    simp only
    split
    · exact ⟨hn, hv⟩
    · refine ⟨mapSet_keys_nodup m _ t hn, ?_⟩
      intro e he
      rcases mapSet_mem m _ t e he with h | h
      · exact hv e h
      · rw [h]
        exact ⟨rfl, hnn⟩

theorem foldl_mergeStep_inv (incoming : List JVal) (m : JsMap) (hn : (m.map Prod.fst).Nodup)
    (hv : ∀ e ∈ m, idOf e.2 = e.1 ∧ e.2 ≠ .null ∧ e.2 ≠ .undefined) :
    ((incoming.foldl mergeStep m).map Prod.fst).Nodup ∧
      ∀ e ∈ incoming.foldl mergeStep m, idOf e.2 = e.1 ∧ e.2 ≠ .null ∧ e.2 ≠ .undefined := by
  induction incoming generalizing m with
  | nil => exact ⟨hn, hv⟩
  | cons t rest ih =>
    rw [List.foldl_cons]
    exact ih _ (mergeStep_inv m t hn hv).1 (mergeStep_inv m t hn hv).2

theorem newMap_entries_inv (S : List JVal) (hrec : Records S) :
    ((newMap (S.map (fun t => (idOf t, t)))).map Prod.fst).Nodup ∧
      ∀ e ∈ newMap (S.map (fun t => (idOf t, t))),
        idOf e.2 = e.1 ∧ e.2 ≠ .null ∧ e.2 ≠ .undefined := by
  have key : ∀ (es : List (JVal × JVal)) (m : JsMap),
      (∀ e ∈ es, idOf e.2 = e.1 ∧ e.2 ≠ .null ∧ e.2 ≠ .undefined) →
      (m.map Prod.fst).Nodup → (∀ e ∈ m, idOf e.2 = e.1 ∧ e.2 ≠ .null ∧ e.2 ≠ .undefined) →
      ((es.foldl (fun m e => mapSet m e.1 e.2) m).map Prod.fst).Nodup ∧
        ∀ e ∈ es.foldl (fun m e => mapSet m e.1 e.2) m,
          idOf e.2 = e.1 ∧ e.2 ≠ .null ∧ e.2 ≠ .undefined := by
    intro es
    induction es with
    | nil => exact fun m _ hn hv => ⟨hn, hv⟩
    | cons e0 rest ih =>
      intro m hes hn hv
      rw [List.foldl_cons]
      apply ih _ (fun e he => hes e (List.mem_cons_of_mem _ he)) (mapSet_keys_nodup m _ _ hn)
      intro e he
      rcases mapSet_mem m _ _ e he with h | h
      · exact hv e h
      · rw [h]
        exact hes e0 (List.mem_cons_self _ _)
  apply key _ [] _ (by simp) (by simp)
  intro e he
  obtain ⟨t, ht, rfl⟩ := List.mem_map.1 he
  exact ⟨rfl, hrec t ht⟩

theorem mergeTrees_records (S incoming merged : List JVal) (hrec : Records S)
    (h : mergeTrees S incoming = .ok merged) : Records merged := by
  have hm0 := newMap_entries_inv S hrec
  have hinv := foldl_mergeStep_inv incoming _ hm0.1 hm0.2
  simp only [mergeTrees, idEntries_of_records S hrec, Except.ok.injEq] at h
  subst h
  intro x hx
  obtain ⟨e, he, rfl⟩ := List.mem_map.1 hx
  exact (hinv.2 e he).2

theorem getProp_of_ne (t : JVal) (k : String) (h : t ≠ .null ∧ t ≠ .undefined) :
    ∃ v, getProp t k = .ok v := by
  cases t <;> simp_all [getProp]

theorem renderMarkers_quiet (P : Platform) (xs : List JVal)
    (hd : ∀ t ∈ xs, P.displayError (.marker t) = none) (hrec : Records xs)
    (htags : ∀ t ∈ xs, ∀ v, getProp t "tags" = .ok v → truthy v = true → isArray v = true) :
    renderMarkers P xs = none := by
  induction xs with
  | nil => rfl
  | cons t rest ih =>
    have hnn := hrec t (List.mem_cons_self _ _)
    obtain ⟨sp, hsp⟩ := getProp_of_ne t "species" hnn
    obtain ⟨tg, htg⟩ := getProp_of_ne t "tags" hnn
    have hmark : addOrUpdateMarker P t = none := by
      by_cases htr : truthy tg = true
      · simp [addOrUpdateMarker, hsp, htg, htr, htags t (List.mem_cons_self _ _) tg htg htr,
          hd t (List.mem_cons_self _ _)]
      · simp [addOrUpdateMarker, hsp, htg, htr, hd t (List.mem_cons_self _ _)]
    simp only [renderMarkers, hmark]
    exact ih (fun x hx => hd x (List.mem_cons_of_mem _ hx))
      (fun x hx => hrec x (List.mem_cons_of_mem _ hx))
      (fun x hx => htags x (List.mem_cons_of_mem _ hx))

theorem persistAndRefresh_quiet (P : Platform) (st : AppState) (focusId : JVal)
    (xs : List JVal) (hst : st.trees = .arr xs)
    (hs : P.setItemError (P.jsonStringify (.arr xs)) = none)
    (hclear : P.displayError .clearMarkers = none)
    (hd : ∀ t ∈ xs, P.displayError (.marker t) = none)
    (hlist : P.displayError (.list (.arr xs) st.selectedId) = none)
    (hform : truthy focusId = true → P.displayError (.form (.arr xs) focusId) = none)
    (hrec : Records xs)
    (htags : ∀ t ∈ xs, ∀ v, getProp t "tags" = .ok v → truthy v = true → isArray v = true) :
    (persistAndRefresh P st focusId).2 = none := by
  simp only [persistAndRefresh, saveTreesLocal, hst, hs, renderAll, hclear,
    renderMarkers_quiet P xs hd hrec htags, hlist, setSelected]
  split
  · rename_i h
    exact hform h
  · rfl

/-! ## C1: merge precedence -/

/-- C1. Merge precedence: when the records of the store `S` have pairwise distinct ids and the
incoming record `r'` has a truthy (non-empty) id equal to the id of the record at position `i`
of `S`, importing `[r']` yields a store of the same length whose entry at position `i` is `r'`
itself, every other position holding the record it held in `S`; this for every platform,
whether or not the cache write and the rendering that follow the merge raise. -/
theorem import_replaces_record_with_same_id (P : Platform) (st : AppState) (S : List JVal)
    (r' k : JVal) (i : Nat) (hst : st.trees = .arr S) (hrec : Records S)
    (hdist : DistinctIds S) (hi : i < S.length) (hid : getProp r' "id" = .ok k)
    (hne : truthy k = true) (hsame : idOf S[i] = k) :
    (importData P st (.arr [r'])).state.trees = .arr (S.set i r') ∧
      (S.set i r').length = S.length ∧ (S.set i r')[i]? = some r' ∧
      ∀ j, j ≠ i → (S.set i r')[j]? = S[j]? := by
  refine ⟨(importData_array_trees P st S [r'] (S.set i r') hst
    (mergeTrees_single S r' k i hrec hdist hi hid hne hsame)).1, ?_, ?_, ?_⟩
  · simp
  · simp [hi]
  · intro j hj
    simp [List.getElem?_set, Ne.symm hj]

/-- Witness of C1: a second record `b` of a two-record store is replaced by the imported `b`. -/
theorem import_replaces_record_with_same_id_witness :
    (importData samplePlatform
        { AppState.init none with trees := .arr [sampleTree "a" "x", sampleTree "b" "y"] }
        (.arr [sampleTree "b" "z"])).state.trees
      = .arr [sampleTree "a" "x", sampleTree "b" "z"] :=
  (import_replaces_record_with_same_id samplePlatform
    { AppState.init none with trees := .arr [sampleTree "a" "x", sampleTree "b" "y"] }
    [sampleTree "a" "x", sampleTree "b" "y"] (sampleTree "b" "z") (.str "b") 1 rfl
    (by decide) (by decide) (by decide) (by decide) (by decide) (by decide)).1

/-! ## C2: merge idempotence -/

/-- C2, counterexample: merging a collection whose two records share the id `a` with itself
keeps only the second record, so the result differs from the collection. -/
theorem merge_self_with_duplicate_ids :
    mergeTrees [sampleTree "a" "x", sampleTree "a" "y"] [sampleTree "a" "x", sampleTree "a" "y"]
        = .ok [sampleTree "a" "y"] ∧
      mergeTrees [sampleTree "a" "x", sampleTree "a" "y"]
          [sampleTree "a" "x", sampleTree "a" "y"]
        ≠ .ok [sampleTree "a" "x", sampleTree "a" "y"] := by
  decide

/-- C2, amended. Merge idempotence for collections of records with pairwise distinct ids:
merging `S` with itself returns `S`, same records in the same order, and importing `S` into a
store equal to `S` leaves the store equal to `S`. -/
theorem merge_self_of_distinct_ids (S : List JVal) (hrec : Records S) (hdist : DistinctIds S) :
    mergeTrees S S = .ok S ∧
      ∀ (P : Platform) (st : AppState), st.trees = .arr S →
        (importData P st (.arr S)).state.trees = .arr S := by
  refine ⟨mergeTrees_self S hrec hdist, ?_⟩
  intro P st hst
  exact (importData_array_trees P st S S S hst (mergeTrees_self S hrec hdist)).1

/-- Witness of C2 amended: a two-record collection with ids `a` and `b`. -/
theorem merge_self_of_distinct_ids_witness :
    Records [sampleTree "a" "x", sampleTree "b" "y"] ∧
      DistinctIds [sampleTree "a" "x", sampleTree "b" "y"] ∧
      mergeTrees [sampleTree "a" "x", sampleTree "b" "y"]
          [sampleTree "a" "x", sampleTree "b" "y"]
        = .ok [sampleTree "a" "x", sampleTree "b" "y"] :=
  ⟨by decide, by decide,
    (merge_self_of_distinct_ids [sampleTree "a" "x", sampleTree "b" "y"]
      (by decide) (by decide)).1⟩

/-! ## C4: save validation -/

/-- C4. Save validation: when the latitude or the longitude of the form is missing (empty) or
does not parse to a finite number, the save handler shows the location message and returns with
the whole state unchanged: same store, same cache, same undo buffer, no request sent. -/
theorem save_rejected_without_location (P : Platform) (st : AppState) (f : Form)
    (h : f.lat = "" ∨ f.lng = "" ∨ (P.parseFloat f.lat).isFinite = false ∨
      (P.parseFloat f.lng).isFinite = false) :
    saveClick P st f = { state := st, alert := some .locationMissing, raised := none } ∧
      (saveClick P st f).state.trees = st.trees ∧
      (saveClick P st f).state.storage = st.storage ∧
      (saveClick P st f).state.lastDeletedTree = st.lastDeletedTree ∧
      (saveClick P st f).state.sent = st.sent := by
  have hrej : (!(P.parseFloat f.lat).isFinite || !(P.parseFloat f.lng).isFinite) = true := by
    rcases h with h | h | h | h
    · simp [h, P.parseFloat_empty, JNum.isFinite]
    · simp [h, P.parseFloat_empty, JNum.isFinite]
    · simp [h]
    · simp [h]
  have hsave : saveClick P st f =
      { state := st, alert := some .locationMissing, raised := none } := by
    unfold saveClick
    simp only [hrej, if_true]
  rw [hsave]
  exact ⟨rfl, rfl, rfl, rfl, rfl⟩

/-- Witness of C4: a form without latitude on a store of one record. -/
theorem save_rejected_without_location_witness :
    (saveClick samplePlatform
        { AppState.init none with trees := .arr [sampleTree "a" "x"] }
        { lat := "", lng := "3.086", species := "Chêne", height := "", dbh := "", secteur := "",
          address := "", tags := "", comment := "", files := [], uid := "u1", now := 1,
          nowAgain := 1 }).state
      = { AppState.init none with trees := .arr [sampleTree "a" "x"] } :=
  congrArg Outcome.state
    (save_rejected_without_location samplePlatform
      { AppState.init none with trees := .arr [sampleTree "a" "x"] }
      { lat := "", lng := "3.086", species := "Chêne", height := "", dbh := "", secteur := "",
        address := "", tags := "", comment := "", files := [], uid := "u1", now := 1,
        nowAgain := 1 } (Or.inl rfl)).1

/-! ## Lemmas on delete and undo -/

theorem idOf_injOn (S : List JVal) (hdist : DistinctIds S) (x r : JVal) (hx : x ∈ S)
    (hr : r ∈ S) (h : idOf x = idOf r) : x = r :=
  List.inj_on_of_nodup_map hdist hx hr h

theorem findById_of_mem (S : List JVal) (r : JVal) (hrec : Records S) (hdist : DistinctIds S)
    (hr : r ∈ S) (hne : truthy (idOf r) = true) : findById S (idOf r) = .ok (some r) := by
  induction S with
  | nil => simp at hr
  | cons t rest ih =>
    have ht := getProp_id_of_ne t (hrec t (List.mem_cons_self _ _))
    have hrest : Records rest := fun x hx => hrec x (List.mem_cons_of_mem _ hx)
    have hd2 : (idOf t ∉ rest.map idOf) ∧ DistinctIds rest := by
      simpa [DistinctIds] using hdist
    by_cases e : idOf t = idOf r
    · have htr : t = r := idOf_injOn (t :: rest) hdist t r (List.mem_cons_self _ _) hr e
      subst htr
      simp [findById, ht, strictEq_of_truthy _ _ hne]
    · have hmem : r ∈ rest := by
        rcases List.mem_cons.1 hr with h | h
        · exact absurd (by rw [h]) e
        · exact h
      simp [findById, ht, strictEq_of_truthy _ _ hne, e, ih hrest hd2.2 hmem]

theorem filterOthers_of_records (S : List JVal) (id : JVal) (hrec : Records S) :
    filterOthers S id = .ok (S.filter (fun x => !strictEq (idOf x) id)) := by
  induction S with
  | nil => rfl
  | cons t rest ih =>
    have ht := getProp_id_of_ne t (hrec t (List.mem_cons_self _ _))
    have hrest : Records rest := fun x hx => hrec x (List.mem_cons_of_mem _ hx)
    simp only [filterOthers, ht, ih hrest, List.filter_cons]
    split <;> simp_all

theorem filterOthers_of_mem (S : List JVal) (r : JVal) (hrec : Records S)
    (hdist : DistinctIds S) (hr : r ∈ S) (hne : truthy (idOf r) = true) :
    filterOthers S (idOf r) = .ok (S.filter (fun x => x != r)) := by
  rw [filterOthers_of_records S (idOf r) hrec]
  congr 1
  apply List.filter_congr
  intro x hx
  rw [strictEq_of_truthy _ _ hne]
  by_cases e : x = r
  · simp [e]
  · have : idOf x ≠ idOf r := fun h => e (idOf_injOn S hdist x r hx hr h)
    simp [e, this]

theorem records_filter (S : List JVal) (p : JVal → Bool) (hrec : Records S) :
    Records (S.filter p) :=
  fun x hx => hrec x (List.mem_of_mem_filter hx)

theorem distinctIds_filter (S : List JVal) (p : JVal → Bool) (hdist : DistinctIds S) :
    DistinctIds (S.filter p) :=
  List.Nodup.sublist (List.Sublist.map idOf (List.filter_sublist S)) hdist

theorem spreadObject_of_truthy_id (r : JVal) (hne : truthy (idOf r) = true) :
    spreadObject r = r := by
  cases r <;> simp_all [idOf, getProp, truthy, spreadObject, ownEntries]

theorem ne_nullish_of_truthy_id (r : JVal) (hne : truthy (idOf r) = true) :
    r ≠ .null ∧ r ≠ .undefined := by
  cases r <;> simp_all [idOf, getProp, truthy]

theorem deleteClick_of_mem (P : Platform) (st : AppState) (S : List JVal) (r : JVal)
    (hst : st.trees = .arr S) (hsel : st.selectedId = idOf r) (hrec : Records S)
    (hdist : DistinctIds S) (hr : r ∈ S) (hne : truthy (idOf r) = true) :
    (deleteClick P st true).state.trees = .arr (S.filter (fun x => x != r)) ∧
      (deleteClick P st true).state.lastDeletedTree = r := by
  simp only [deleteClick, hsel, hne, hst, getTreeById, findById_of_mem S r hrec hdist hr hne,
    spreadObject_of_truthy_id r hne, getProp_id_of_ne r (ne_nullish_of_truthy_id r hne),
    deleteFromSheets, filterOthers_of_mem S r hrec hdist hr hne, Bool.not_true,
    Bool.false_eq_true, if_false]
  split
  · exact ⟨rfl, rfl⟩
  · split
    · exact ⟨rfl, rfl⟩
    · rename_i st5 h5
      rw [saveTreesLocal_frame P _ st5 h5]
      split
      · exact ⟨rfl, rfl⟩
      · split <;> exact ⟨rfl, rfl⟩

theorem syncToSheets_frame (P : Platform) (t : JVal) (st : AppState) :
    (syncToSheets P t st).trees = st.trees ∧
      (syncToSheets P t st).selectedId = st.selectedId ∧
      (syncToSheets P t st).lastDeletedTree = st.lastDeletedTree ∧
      (syncToSheets P t st).storage = st.storage := by
  unfold syncToSheets
  split <;> exact ⟨rfl, rfl, rfl, rfl⟩

theorem undoClick_of_empty (P : Platform) (st : AppState) (h : st.lastDeletedTree = .null) :
    undoClick P st = done st := by
  simp [undoClick, h, truthy]

theorem undoClick_of_truthy (P : Platform) (st : AppState) (xs : List JVal) (t : JVal)
    (hst : st.trees = .arr xs) (hbuf : st.lastDeletedTree = t) (ht : truthy t = true) :
    (undoClick P st).state.trees = .arr (t :: xs) ∧
      (undoClick P st).state.lastDeletedTree = .null := by
  have hnn : t ≠ .null ∧ t ≠ .undefined := by
    cases t <;> simp_all [truthy]
  simp only [undoClick, hbuf, ht, hst, getProp_id_of_ne t hnn,
    Bool.not_true, Bool.false_eq_true, if_false]
  split
  · exact ⟨rfl, rfl⟩
  · rename_i st3 h3
    rw [saveTreesLocal_frame P _ st3 h3]
    split
    · exact ⟨rfl, rfl⟩
    · split
      · rename_i st4 e heq
        have h4 : _ = st4 := congrArg Prod.fst heq
        subst h4
        exact ⟨rfl, rfl⟩
      · rename_i st4 heq
        have h4 : _ = st4 := congrArg Prod.fst heq
        subst h4
        exact ⟨(syncToSheets_frame P t _).1, (syncToSheets_frame P t _).2.2.1⟩

theorem undoClick_of_holding (P : Platform) (st : AppState) (xs : List JVal) (t : JVal)
    (hst : st.trees = .arr xs) (hbuf : st.lastDeletedTree = t)
    (hne : truthy (idOf t) = true) :
    (undoClick P st).state.trees = .arr (t :: xs) ∧
      (undoClick P st).state.lastDeletedTree = .null := by
  have ht : truthy t = true := by
    cases t <;> simp_all [idOf, getProp, truthy]
  exact undoClick_of_truthy P st xs t hst hbuf ht

theorem select_delete (P : Platform) (st : AppState) (S : List JVal) (r : JVal)
    (hst : st.trees = .arr S) (hrec : Records S) (hdist : DistinctIds S) (hr : r ∈ S)
    (hne : truthy (idOf r) = true) :
    (run P st [.select (idOf r), .delete true]).trees = .arr (S.filter (fun x => x != r)) ∧
      (run P st [.select (idOf r), .delete true]).lastDeletedTree = r := by
  simp only [run, List.foldl_cons, List.foldl_nil, step]
  exact deleteClick_of_mem P { st with selectedId := idOf r } S r hst rfl hrec hdist hr hne

theorem run_append (P : Platform) (st : AppState) (xs ys : List Action) :
    run P st (xs ++ ys) = run P (run P st xs) ys := by
  simp [run, List.foldl_append]

theorem filter_ne_of_head (r : JVal) (rest : List JVal) (hdist : DistinctIds (r :: rest)) :
    (r :: rest).filter (fun x => x != r) = rest := by
  have hnd : (r :: rest).Nodup := List.Nodup.of_map idOf hdist
  have hnot : r ∉ rest := (List.nodup_cons.1 hnd).1
  rw [List.filter_cons]
  simp only [bne_self_eq_false, Bool.false_eq_true, if_false]
  apply List.filter_eq_self.2
  intro x hx
  have : x ≠ r := fun e => hnot (e ▸ hx)
  simp [this]

/-! ## C3: identity uniqueness -/

/-- C3, failing run. From the empty store: import a file holding a record with id `a`, select
and delete that record, import a file holding a record with id `a` again, then undo. The undo
puts the deleted record back without looking at the ids of the store: the store ends with two
records that share the id `a`. -/
theorem undo_after_reimport_duplicates_id (P : Platform) :
    (run P (AppState.init none)
        [.importJson (.arr [sampleTree "a" "x"]), .select (.str "a"), .delete true,
          .importJson (.arr [sampleTree "a" "y"]), .undo]).trees
      = .arr [sampleTree "a" "x", sampleTree "a" "y"] ∧
      ¬ DistinctIds [sampleTree "a" "x", sampleTree "a" "y"] := by
  refine ⟨?_, by decide⟩
  simp only [run, List.foldl_cons, List.foldl_nil, step]
  have h1 := importData_array_trees P (AppState.init none) [] [sampleTree "a" "x"]
    [sampleTree "a" "x"] rfl (by decide)
  have h3 := deleteClick_of_mem P
    { (importData P (AppState.init none) (.arr [sampleTree "a" "x"])).state with
      selectedId := .str "a" }
    [sampleTree "a" "x"] (sampleTree "a" "x") h1.1 rfl (by decide) (by decide) (by decide)
    (by decide)
  have h4 := importData_array_trees P _ [] [sampleTree "a" "y"] [sampleTree "a" "y"]
    h3.1 (by decide)
  exact (undoClick_of_holding P _ [sampleTree "a" "y"] (sampleTree "a" "x") h4.1
    (h4.2.trans h3.2) (by decide)).1

/-! ## C5: undo round trip -/

/-- C5, counterexample: in the store `[a, b]`, deleting `b` and undoing at once gives the store
`[b, a]`: the record comes back at the head, not at its former position. And in a store whose
two records share the id `b`, deleting the first one removes both and the undo brings back only
one of them. -/
theorem delete_then_undo_changes_store :
    (run samplePlatform
        { AppState.init none with trees := .arr [sampleTree "a" "x", sampleTree "b" "y"] }
        [.select (.str "b"), .delete true, .undo]).trees
        = .arr [sampleTree "b" "y", sampleTree "a" "x"] ∧
      (run samplePlatform
        { AppState.init none with trees := .arr [sampleTree "a" "x", sampleTree "b" "y"] }
        [.select (.str "b"), .delete true, .undo]).trees
        ≠ .arr [sampleTree "a" "x", sampleTree "b" "y"] ∧
      (run samplePlatform
        { AppState.init none with trees := .arr [sampleTree "b" "y", sampleTree "b" "z"] }
        [.select (.str "b"), .delete true, .undo]).trees
        = .arr [sampleTree "b" "y"] := by
  decide

/-- C5, amended. Undo round trip: in a store `S` of records with pairwise distinct ids,
selecting a record `r` (with a truthy id), deleting it and undoing at once gives the store made
of `r`, with all its fields, followed by the other records of `S` in their order. This store is
a permutation of `S`, it is `S` itself when `r` was the first record, and the undo buffer is
empty again. -/
theorem delete_then_undo_reinserts_at_head (P : Platform) (st : AppState) (S : List JVal)
    (r : JVal) (hst : st.trees = .arr S) (hrec : Records S) (hdist : DistinctIds S)
    (hr : r ∈ S) (hne : truthy (idOf r) = true) :
    (run P st [.select (idOf r), .delete true, .undo]).trees
        = .arr (r :: S.filter (fun x => x != r)) ∧
      (r :: S.filter (fun x => x != r)).Perm S ∧
      (∀ rest, S = r :: rest → (run P st [.select (idOf r), .delete true, .undo]).trees = .arr S) ∧
      (run P st [.select (idOf r), .delete true, .undo]).lastDeletedTree = .null := by
  have hrun : run P st [.select (idOf r), .delete true, .undo] =
      (undoClick P (run P st [.select (idOf r), .delete true])).state := by
    rw [show [Action.select (idOf r), .delete true, .undo]
      = [Action.select (idOf r), .delete true] ++ [.undo] from rfl, run_append]
    rfl
  have hdel := select_delete P st S r hst hrec hdist hr hne
  have hframe := undoClick_of_holding P (run P st [.select (idOf r), .delete true])
    (S.filter (fun x => x != r)) r hdel.1 hdel.2 hne
  rw [hrun]
  have hnd : S.Nodup := List.Nodup.of_map idOf hdist
  refine ⟨hframe.1, ?_, ?_, hframe.2⟩
  · rw [← List.Nodup.erase_eq_filter hnd r]
    exact (List.perm_cons_erase hr).symm
  · intro rest hS
    rw [hframe.1]
    subst hS
    rw [filter_ne_of_head r rest hdist]

/-- Witness of C5 amended: deleting and restoring the second record of a two-record store. -/
theorem delete_then_undo_reinserts_at_head_witness :
    (run samplePlatform
        { AppState.init none with trees := .arr [sampleTree "a" "x", sampleTree "b" "y"] }
        [.select (idOf (sampleTree "b" "y")), .delete true, .undo]).trees
      = .arr (sampleTree "b" "y" ::
          [sampleTree "a" "x", sampleTree "b" "y"].filter (fun x => x != sampleTree "b" "y")) :=
  (delete_then_undo_reinserts_at_head samplePlatform
    { AppState.init none with trees := .arr [sampleTree "a" "x", sampleTree "b" "y"] }
    [sampleTree "a" "x", sampleTree "b" "y"] (sampleTree "b" "y") rfl (by decide) (by decide)
    (by decide) (by decide)).1

/-! ## C6: remote push -/

theorem appendParams_raises_at_photos (P : Platform) (entries : List (String × JVal))
    (params : List (String × String)) (h : "photos" ∈ entries.map Prod.fst) :
    appendParams P entries params = .error .referenceError := by
  induction entries generalizing params with
  | nil => simp at h
  | cons e rest ih =>
    obtain ⟨key, field⟩ := e
    by_cases hk : key = "photos"
    · simp [appendParams, hk, freeVariableT]
    · have hrest : "photos" ∈ rest.map Prod.fst := by
        rcases List.mem_cons.1 h with h | h
        · exact absurd h.symm hk
        · exact h
      simp only [appendParams, hk, if_false]
      exact ih _ hrest

/-- C6, evaluation of the code: for every record that has a `photos` property, `syncToSheets`
raises a `ReferenceError` while it builds the parameters (line 128 reads `t`, which is not
declared there), catches it, and returns without sending any request. -/
theorem syncToSheets_sends_nothing_with_photos (P : Platform) (treeObj : JVal) (st : AppState)
    (h : "photos" ∈ (ownEntries treeObj).map Prod.fst) :
    appendParams P (ownEntries treeObj) [] = .error .referenceError ∧
      syncToSheets P treeObj st = st ∧ (syncToSheets P treeObj st).sent = st.sent := by
  have hraise := appendParams_raises_at_photos P (ownEntries treeObj) [] h
  have hsync : syncToSheets P treeObj st = st := by
    simp [syncToSheets, hraise]
  exact ⟨hraise, hsync, by rw [hsync]⟩

/-- Witness of C6: the record `{ id: "a1", species: "Chêne", photos: [] }` is not pushed. -/
theorem syncToSheets_sends_nothing_with_photos_witness :
    (syncToSheets samplePlatform
        (.obj [("id", .str "a1"), ("species", .str "Chêne"), ("photos", .arr [])])
        (AppState.init none)).sent = [] :=
  (syncToSheets_sends_nothing_with_photos samplePlatform
    (.obj [("id", .str "a1"), ("species", .str "Chêne"), ("photos", .arr [])])
    (AppState.init none) (by decide)).2.2

theorem syncToSheets_newTree (P : Platform) (f : Form) (lat lng : JNum) (quartier : JVal)
    (photos : List JVal) (st : AppState) :
    syncToSheets P (newTree P f lat lng quartier photos) st = st := by
  have hraise := appendParams_raises_at_photos P
    (ownEntries (newTree P f lat lng quartier photos)) [] (by simp [newTree, ownEntries])
  simp [syncToSheets, hraise]

/-! ## C7: import shape validation -/

theorem mergeTrees_of_records (S incoming : List JVal) (hrec : Records S) :
    ∃ merged, mergeTrees S incoming = .ok merged := by
  simp [mergeTrees, idEntries_of_records S hrec]

theorem importData_of_shape (P : Platform) (st : AppState) (d : JVal) (xs : List JVal)
    (h : d = .arr xs ∨ ∃ ps, d = .obj ps ∧ ps.lookup "trees" = some (.arr xs)) :
    importData P st d = importData P st (.arr xs) := by
  rcases h with h | ⟨ps, h, hl⟩
  · rw [h]
  · subst h
    simp [importData, isArray, getProp, hl]

theorem importData_refused (P : Platform) (st : AppState) (d : JVal)
    (h : ¬ ((∃ xs, d = .arr xs) ∨ ∃ ps xs, d = .obj ps ∧ ps.lookup "trees" = some (.arr xs))) :
    ∃ e, importData P st d
      = { state := st, alert := some (.importImpossible e), raised := none } := by
  cases d with
  | undefined => exact ⟨_, rfl⟩
  | null => exact ⟨_, rfl⟩
  | bool b => exact ⟨_, rfl⟩
  | num n => exact ⟨_, rfl⟩
  | str s => exact ⟨_, rfl⟩
  | arr xs => exact absurd (Or.inl ⟨xs, rfl⟩) h
  | obj ps =>
    cases hl : ps.lookup "trees" with
    | none => exact ⟨.error "Format JSON inattendu.", by simp [importData, isArray, getProp, hl]⟩
    | some v =>
      cases v with
      | arr xs => exact absurd (Or.inr ⟨ps, xs, rfl, hl⟩) h
      | undefined => exact ⟨.error "Format JSON inattendu.", by simp [importData, isArray, getProp, hl]⟩
      | null => exact ⟨.error "Format JSON inattendu.", by simp [importData, isArray, getProp, hl]⟩
      | bool b => exact ⟨.error "Format JSON inattendu.", by simp [importData, isArray, getProp, hl]⟩
      | num n => exact ⟨.error "Format JSON inattendu.", by simp [importData, isArray, getProp, hl]⟩
      | str s => exact ⟨.error "Format JSON inattendu.", by simp [importData, isArray, getProp, hl]⟩
      | obj qs => exact ⟨.error "Format JSON inattendu.", by simp [importData, isArray, getProp, hl]⟩

/-- C7, counterexample: three documents that are arrays and whose import does not succeed.
On the empty store, the array holding the record `{ id: "a", lat: 50, lng: 3, tags: "x,y" }`:
the merge is done and the cache written, then `addOrUpdateMarker` raises on the tags that are a
text (line 577), the handler catches it and shows the error message, with the store already
replaced. On the store `[null]`, the empty array: reading `t.id` raises on `null` (line 766).
On a storage that refuses the write, the array holding one record: the error message, with the
store already replaced. -/
theorem import_of_shaped_document_fails :
    (importData samplePlatform (AppState.init none) (.arr [sampleTreeWithTextTags])).alert
        = some (.importImpossible .typeError) ∧
      (importData samplePlatform (AppState.init none)
        (.arr [sampleTreeWithTextTags])).state.trees = .arr [sampleTreeWithTextTags] ∧
      (importData samplePlatform (AppState.init none)
        (.arr [sampleTreeWithTextTags])).state.storage = some "[]" ∧
      (importData samplePlatform { AppState.init none with trees := .arr [.null] }
        (.arr [])).alert = some (.importImpossible .typeError) ∧
      (importData fullStoragePlatform (AppState.init none) (.arr [sampleTree "a" "x"])).alert
        = some (.importImpossible (.error "QuotaExceededError")) ∧
      (importData fullStoragePlatform (AppState.init none)
        (.arr [sampleTree "a" "x"])).state.trees = .arr [sampleTree "a" "x"] := by
  decide

/-- C7, amended. Import shape validation, for every parsed document `d` and every state.
When `d` is neither an array nor an object whose `trees` member is an array, the import shows
the error message and the whole state, the store included, is unchanged. The import reports
success only for a document of one of these two shapes. For such a document with the array
`xs`, on a store `S` of records: the store becomes the merge of `S` and `xs`, nothing escapes
the handler, success is reported exactly when the cache write and the rendering that follow the
merge raise nothing, and they raise nothing when the storage accepts the write, Leaflet and the
DOM raise nothing on the merged records and the tags of every merged record are an array or
falsy. -/
theorem import_shape_validation (P : Platform) (st : AppState) (d : JVal) :
    (¬ ((∃ xs, d = .arr xs) ∨ ∃ ps xs, d = .obj ps ∧ ps.lookup "trees" = some (.arr xs)) →
        (importData P st d).state = st ∧ (importData P st d).state.trees = st.trees ∧
          (importData P st d).raised = none ∧
          ∃ e, (importData P st d).alert = some (.importImpossible e)) ∧
      ((importData P st d).alert = some .importDone →
        ((∃ xs, d = .arr xs) ∨ ∃ ps xs, d = .obj ps ∧ ps.lookup "trees" = some (.arr xs))) ∧
      (∀ S xs, st.trees = .arr S → Records S →
        (d = .arr xs ∨ ∃ ps, d = .obj ps ∧ ps.lookup "trees" = some (.arr xs)) →
        ∃ merged, mergeTrees S xs = .ok merged ∧
          (importData P st d).state.trees = .arr merged ∧
          (importData P st d).raised = none ∧
          ((importData P st d).alert = some .importDone ↔
            (persistAndRefresh P { st with trees := .arr merged } st.selectedId).2 = none) ∧
          (P.setItemError (P.jsonStringify (.arr merged)) = none →
            P.displayError .clearMarkers = none →
            (∀ t ∈ merged, P.displayError (.marker t) = none) →
            P.displayError (.list (.arr merged) st.selectedId) = none →
            (truthy st.selectedId = true →
              P.displayError (.form (.arr merged) st.selectedId) = none) →
            (∀ t ∈ merged, ∀ v, getProp t "tags" = .ok v → truthy v = true →
              isArray v = true) →
            (importData P st d).alert = some .importDone)) := by
  refine ⟨?_, ?_, ?_⟩
  · intro h
    obtain ⟨e, he⟩ := importData_refused P st d h
    rw [he]
    exact ⟨rfl, rfl, rfl, e, rfl⟩
  · intro hdone
    by_contra h
    obtain ⟨e, he⟩ := importData_refused P st d h
    rw [he] at hdone
    simp at hdone
  · intro S xs hst hrec hshape
    obtain ⟨merged, hm⟩ := mergeTrees_of_records S xs hrec
    have harr := importData_array P st S xs merged hst hm
    have hiff : (importData P st (.arr xs)).alert = some .importDone ↔
        (persistAndRefresh P { st with trees := .arr merged } st.selectedId).2 = none := by
      rw [harr.2.2]
      cases (persistAndRefresh P { st with trees := .arr merged } st.selectedId).2 <;> simp
    rw [importData_of_shape P st d xs hshape]
    refine ⟨merged, hm, (importData_array_trees P st S xs merged hst hm).1, harr.2.1, hiff, ?_⟩
    intro hs hclear hd hlist hform htags
    exact hiff.2 (persistAndRefresh_quiet P _ _ merged rfl hs hclear hd hlist hform
      (mergeTrees_records S xs merged hrec hm) htags)

/-- Witness of C7 amended: the document `{ foo: 1 }` is refused and the store keeps its record;
the document `{ trees: [b] }` is imported into the store `[a]`, which becomes `[a, b]`, with
success reported (the records `a` and `b` have coordinates and an array of tags). -/
theorem import_shape_validation_witness :
    (importData samplePlatform { AppState.init none with trees := .arr [sampleTreeOnMap "a"] }
        (.obj [("foo", .num (.fin 1))])).state
        = { AppState.init none with trees := .arr [sampleTreeOnMap "a"] } ∧
      (importData samplePlatform { AppState.init none with trees := .arr [sampleTreeOnMap "a"] }
        (.obj [("trees", .arr [sampleTreeOnMap "b"])])).state.trees
        = .arr [sampleTreeOnMap "a", sampleTreeOnMap "b"] ∧
      (importData samplePlatform { AppState.init none with trees := .arr [sampleTreeOnMap "a"] }
        (.obj [("trees", .arr [sampleTreeOnMap "b"])])).alert = some .importDone := by
  refine ⟨((import_shape_validation samplePlatform
    { AppState.init none with trees := .arr [sampleTreeOnMap "a"] }
    (.obj [("foo", .num (.fin 1))])).1
    (by
      rintro (⟨xs, h⟩ | ⟨ps, xs, h, hl⟩)
      · cases h
      · cases h
        simp [List.lookup] at hl)).1, ?_⟩
  obtain ⟨merged, hm, htrees, _, _, hquiet⟩ := (import_shape_validation samplePlatform
    { AppState.init none with trees := .arr [sampleTreeOnMap "a"] }
    (.obj [("trees", .arr [sampleTreeOnMap "b"])])).2.2 [sampleTreeOnMap "a"]
    [sampleTreeOnMap "b"] rfl (by decide) (Or.inr ⟨_, rfl, by decide⟩)
  have hmerged : merged = [sampleTreeOnMap "a", sampleTreeOnMap "b"] :=
    (Except.ok.inj (hm.symm.trans (by decide))
      : merged = [sampleTreeOnMap "a", sampleTreeOnMap "b"])
  subst hmerged
  refine ⟨htrees, hquiet rfl rfl (fun _ _ => rfl) rfl (fun _ => rfl) ?_⟩
  intro t ht v hv htr
  simp only [List.mem_cons, List.mem_singleton, List.mem_nil_iff, or_false] at ht
  rcases ht with rfl | rfl <;> simp [sampleTreeOnMap, getProp, List.lookup] at hv <;>
    simp [← hv, isArray]

/-! ## C8: local cache load -/

/-- C8, evaluation of the code: when the durable key holds a non-empty text that `JSON.parse`
accepts, `loadTrees` returns the parsed value as it is, array or not. -/
theorem loadTrees_returns_parsed_value (P : Platform) (text : String) (v : JVal)
    (hne : text ≠ "") (h : P.jsonParse text = some v) : loadTrees P (some text) = v := by
  simp [loadTrees, hne, h]

/-- Witness of C8: on the stored text `null`, `loadTrees` returns `null`, which is no array. -/
theorem loadTrees_returns_parsed_value_witness :
    loadTrees samplePlatform (some "null") = .null ∧
      isArray (loadTrees samplePlatform (some "null")) = false :=
  ⟨loadTrees_returns_parsed_value samplePlatform "null" .null (by decide) (by decide),
    by decide⟩

theorem loadTrees_absent (P : Platform) : loadTrees P none = .arr [] := by
  simp [loadTrees, P.jsonParse_emptyArray]

theorem loadTrees_not_json (P : Platform) (text : String) (hne : text ≠ "")
    (h : P.jsonParse text = none) : loadTrees P (some text) = .arr [] := by
  simp [loadTrees, hne, h]

/-! ## C9: startup fetch -/

/-- C9, counterexample: on a storage that refuses the write, a successful response whose
payload is the array `[a]` does not make the store that array. `saveTreesLocal()` raises inside
the `try`, the `catch` sets the store to `loadTrees()`, here the empty array since the cache is
absent, and the cache is not written. -/
theorem startup_fetch_with_full_storage :
    (loadTreesFromSheets fullStoragePlatform (AppState.init none)
        (.response true (some (.arr [sampleTree "a" "x"])))).state.trees = .arr [] ∧
      (loadTreesFromSheets fullStoragePlatform (AppState.init none)
        (.response true (some (.arr [sampleTree "a" "x"])))).state.trees
        ≠ .arr [sampleTree "a" "x"] ∧
      (loadTreesFromSheets fullStoragePlatform (AppState.init none)
        (.response true (some (.arr [sampleTree "a" "x"])))).state.storage = none := by
  decide

/-- C9, amended. Startup fetch: `loadTreesFromSheets` never raises. On a successful response
whose payload is an array, when the cache write succeeds, the store becomes that array and the
cache holds its serialization. On a network error, a non-success status, a payload that cannot
be read, a payload that is no array, or a cache write that raises, the store becomes
`loadTrees()` and the cache is not modified. The rest of the state is unchanged in every case.
And `loadTrees()` is the empty array when the cache is absent, empty or not JSON, the parsed
value otherwise. -/
theorem loadTreesFromSheets_spec (P : Platform) (st : AppState) (r : FetchResult) :
    (loadTreesFromSheets P st r).raised = none ∧
      (loadTreesFromSheets P st r).state =
        (match r with
        | .response true (some (.arr xs)) =>
          match P.setItemError (P.jsonStringify (.arr xs)) with
          | none => { st with trees := .arr xs, storage := some (P.jsonStringify (.arr xs)) }
          | some _ => { st with trees := loadTrees P st.storage }
        | _ => { st with trees := loadTrees P st.storage }) ∧
      loadTrees P st.storage =
        (match st.storage with
        | none => .arr []
        | some text =>
          if text = "" then .arr []
          else
            match P.jsonParse text with
            | some v => v
            | none => .arr []) := by
  refine ⟨?_, ?_, ?_⟩
  · cases r with
    | networkError => rfl
    | response ok body =>
      cases ok with
      | false => rfl
      | true =>
        cases body with
        | none => rfl
        | some data =>
          cases data with
          | arr xs =>
            simp only [loadTreesFromSheets, saveTreesLocal, isArray]
            cases P.setItemError (P.jsonStringify (.arr xs)) <;> rfl
          | undefined => rfl
          | null => rfl
          | bool b => rfl
          | num n => rfl
          | str s => rfl
          | obj ps => rfl
  · cases r with
    | networkError => rfl
    | response ok body =>
      cases ok with
      | false => rfl
      | true =>
        cases body with
        | none => rfl
        | some data =>
          cases data with
          | arr xs =>
            simp only [loadTreesFromSheets, saveTreesLocal, isArray]
            cases P.setItemError (P.jsonStringify (.arr xs)) <;> rfl
          | undefined => rfl
          | null => rfl
          | bool b => rfl
          | num n => rfl
          | str s => rfl
          | obj ps => rfl
  · cases hs : st.storage with
    | none => simp [loadTrees, P.jsonParse_emptyArray]
    | some text =>
      by_cases ht : text = ""
      · simp [loadTrees, ht, P.jsonParse_emptyArray]
      · simp [loadTrees, ht]

/-! ## C10: single-slot undo buffer -/

theorem two_deletes (P : Platform) (st : AppState) (S : List JVal) (r1 r2 : JVal)
    (hst : st.trees = .arr S) (hrec : Records S) (hdist : DistinctIds S) (h1 : r1 ∈ S)
    (h2 : r2 ∈ S) (hne : r1 ≠ r2) (hid1 : truthy (idOf r1) = true)
    (hid2 : truthy (idOf r2) = true) :
    (run P st [.select (idOf r1), .delete true, .select (idOf r2), .delete true]).trees
        = .arr ((S.filter (fun x => x != r1)).filter (fun x => x != r2)) ∧
      (run P st [.select (idOf r1), .delete true, .select (idOf r2),
        .delete true]).lastDeletedTree = r2 := by
  rw [show [Action.select (idOf r1), .delete true, .select (idOf r2), .delete true]
    = [Action.select (idOf r1), .delete true] ++ [.select (idOf r2), .delete true] from rfl,
    run_append]
  have hmem : r2 ∈ S.filter (fun x => x != r1) := by
    apply List.mem_filter.2
    exact ⟨h2, by simp [Ne.symm hne]⟩
  exact select_delete P _ (S.filter (fun x => x != r1)) r2
    (select_delete P st S r1 hst hrec hdist h1 hid1).1 (records_filter S _ hrec)
    (distinctIds_filter S _ hdist) hmem hid2

/-- C10, counterexample: in the store `[a, b, b']` where `b` and `b'` share the id `b`,
deleting `a` and then `b'` leaves the buffer holding `b`, the first record with that id, and
not the record `b'` that was deleted. -/
theorem undo_buffer_with_duplicate_ids :
    (run samplePlatform
        { AppState.init none with
          trees := .arr [sampleTree "a" "x", sampleTree "b" "y", sampleTree "b" "z"] }
        [.select (idOf (sampleTree "a" "x")), .delete true,
          .select (idOf (sampleTree "b" "z")), .delete true]).lastDeletedTree
        = sampleTree "b" "y" ∧
      (run samplePlatform
        { AppState.init none with
          trees := .arr [sampleTree "a" "x", sampleTree "b" "y", sampleTree "b" "z"] }
        [.select (idOf (sampleTree "a" "x")), .delete true,
          .select (idOf (sampleTree "b" "z")), .delete true]).lastDeletedTree
        ≠ sampleTree "b" "z" := by
  decide

/-- C10, amended. Single-slot undo buffer: in a store `S` of records with pairwise distinct ids, after
deleting `r1` and then `r2` (two different records with truthy ids) the buffer holds exactly
`r2`; an undo then puts `r2`, and only `r2`, back at the head of the remaining records and
empties the buffer, so that `r1` is not in the store; a further undo, as any undo on an empty
buffer, returns with the whole state unchanged (store, cache, buffer, requests sent). -/
theorem undo_buffer_single_slot (P : Platform) (st : AppState) (S : List JVal) (r1 r2 : JVal)
    (hst : st.trees = .arr S) (hrec : Records S) (hdist : DistinctIds S) (h1 : r1 ∈ S)
    (h2 : r2 ∈ S) (hne : r1 ≠ r2) (hid1 : truthy (idOf r1) = true)
    (hid2 : truthy (idOf r2) = true) :
    (run P st [.select (idOf r1), .delete true, .select (idOf r2), .delete true]).lastDeletedTree
        = r2 ∧
      (run P st [.select (idOf r1), .delete true, .select (idOf r2), .delete true, .undo]).trees
        = .arr (r2 :: (S.filter (fun x => x != r1)).filter (fun x => x != r2)) ∧
      r1 ∉ r2 :: (S.filter (fun x => x != r1)).filter (fun x => x != r2) ∧
      (run P st [.select (idOf r1), .delete true, .select (idOf r2), .delete true,
        .undo]).lastDeletedTree = .null ∧
      undoClick P
          (run P st [.select (idOf r1), .delete true, .select (idOf r2), .delete true, .undo])
        = done
          (run P st [.select (idOf r1), .delete true, .select (idOf r2), .delete true, .undo]) ∧
      ∀ st' : AppState, st'.lastDeletedTree = .null → undoClick P st' = done st' := by
  have hdel := two_deletes P st S r1 r2 hst hrec hdist h1 h2 hne hid1 hid2
  have hrun : run P st [.select (idOf r1), .delete true, .select (idOf r2), .delete true, .undo]
      = (undoClick P
          (run P st [.select (idOf r1), .delete true, .select (idOf r2), .delete true])).state := by
    rw [show [Action.select (idOf r1), .delete true, .select (idOf r2), .delete true, .undo]
      = [Action.select (idOf r1), .delete true, .select (idOf r2), .delete true] ++ [.undo]
      from rfl, run_append]
    rfl
  have hundo := undoClick_of_holding P
    (run P st [.select (idOf r1), .delete true, .select (idOf r2), .delete true])
    ((S.filter (fun x => x != r1)).filter (fun x => x != r2)) r2 hdel.1 hdel.2 hid2
  have hbuf : (run P st [.select (idOf r1), .delete true, .select (idOf r2), .delete true,
      .undo]).lastDeletedTree = .null := by
    rw [hrun]
    exact hundo.2
  refine ⟨hdel.2, ?_, ?_, hbuf, undoClick_of_empty P _ hbuf,
    fun st' h => undoClick_of_empty P st' h⟩
  · rw [hrun]
    exact hundo.1
  · intro hmem
    rcases List.mem_cons.1 hmem with e | hmem
    · exact hne e
    · have := (List.mem_filter.1 (List.mem_of_mem_filter hmem)).2
      simp at this

/-- Witness of C10 amended: in the store `[a, b, c]`, deleting `a` then `b` and undoing gives
`[b, c]`. -/
theorem undo_buffer_single_slot_witness :
    (run samplePlatform
        { AppState.init none with
          trees := .arr [sampleTree "a" "x", sampleTree "b" "y", sampleTree "c" "z"] }
        [.select (idOf (sampleTree "a" "x")), .delete true,
          .select (idOf (sampleTree "b" "y")), .delete true]).lastDeletedTree
      = sampleTree "b" "y" :=
  (undo_buffer_single_slot samplePlatform
    { AppState.init none with
      trees := .arr [sampleTree "a" "x", sampleTree "b" "y", sampleTree "c" "z"] }
    [sampleTree "a" "x", sampleTree "b" "y", sampleTree "c" "z"] (sampleTree "a" "x")
    (sampleTree "b" "y") rfl (by decide) (by decide) (by decide) (by decide) (by decide)
    (by decide) (by decide)).1

/-! ## Which handlers keep the ids of the store distinct -/

theorem findIndexById_agrees (xs : List JVal) (id : JVal) :
    findById xs id =
      match findIndexById xs id with
      | .error e => .error e
      | .ok none => .ok none
      | .ok (some i) => .ok (some (xs.getD i .undefined)) := by
  induction xs with
  | nil => rfl
  | cons t rest ih =>
    simp only [findById, findIndexById]
    cases getProp t "id" with
    | error e => rfl
    | ok k =>
      simp only
      by_cases h : strictEq k id = true
      · simp [h]
      · simp only [h, if_false, Bool.false_eq_true]
        rw [ih]
        cases findIndexById rest id with
        | error e => rfl
        | ok o =>
          cases o with
          | none => rfl
          | some i => simp

theorem findIndexById_lt (xs : List JVal) (id : JVal) (i : Nat)
    (h : findIndexById xs id = .ok (some i)) : i < xs.length := by
  induction xs generalizing i with
  | nil => simp [findIndexById] at h
  | cons t rest ih =>
    simp only [findIndexById] at h
    cases hk : getProp t "id" with
    | error e => simp [hk] at h
    | ok k =>
      simp only [hk] at h
      by_cases hs : strictEq k id = true
      · simp [hs] at h
        subst h
        simp
      · simp only [hs, if_false, Bool.false_eq_true] at h
        cases hr : findIndexById rest id with
        | error e => simp [hr] at h
        | ok o =>
          cases o with
          | none => simp [hr] at h
          | some j =>
            simp [hr] at h
            subst h
            have := ih j hr
            simp
            omega

theorem lookup_setField_of_ne (ps : List (String × JVal)) (k k' : String) (v : JVal)
    (h : k ≠ k') : (setField ps k v).lookup k' = ps.lookup k' := by
  induction ps with
  | nil =>
    have : (k' == k) = false := by simp [Ne.symm h]
    simp [setField, List.lookup, this]
  | cons e rest ih =>
    obtain ⟨k0, v0⟩ := e
    by_cases h0 : k0 = k
    · subst h0
      have : (k' == k0) = false := by simp [Ne.symm h]
      simp [setField, List.lookup, this]
    · simp only [setField, h0, if_false, List.lookup]
      rw [ih]

theorem idOf_assign (t : JVal) (k : String) (v : JVal) (h : k ≠ "id") :
    idOf (assign t k v) = idOf t := by
  cases t <;> simp [assign, idOf, getProp, lookup_setField_of_ne _ k "id" v h]

theorem assign_ne_nullish (t : JVal) (k : String) (v : JVal)
    (h : t ≠ .null ∧ t ≠ .undefined) : assign t k v ≠ .null ∧ assign t k v ≠ .undefined := by
  cases t <;> simp_all [assign]

theorem idOf_overwriteFields (P : Platform) (f : Form) (lat lng : JNum) (quartier t : JVal) :
    idOf (overwriteFields P f lat lng quartier t) = idOf t := by
  simp [overwriteFields, idOf_assign]

theorem overwriteFields_ne_nullish (P : Platform) (f : Form) (lat lng : JNum)
    (quartier t : JVal) (h : t ≠ .null ∧ t ≠ .undefined) :
    overwriteFields P f lat lng quartier t ≠ .null ∧
      overwriteFields P f lat lng quartier t ≠ .undefined := by
  unfold overwriteFields
  repeat apply assign_ne_nullish
  exact h

theorem storeOk_set (S : List JVal) (i : Nat) (t : JVal) (hi : i < S.length)
    (hrec : Records S) (hdist : DistinctIds S) (hid : idOf t = idOf S[i])
    (hne : t ≠ .null ∧ t ≠ .undefined) : Records (S.set i t) ∧ DistinctIds (S.set i t) := by
  constructor
  · intro x hx
    rcases List.mem_or_eq_of_mem_set hx with h | h
    · exact hrec x h
    · rw [h]
      exact hne
  · unfold DistinctIds
    rw [List.map_set, hid]
    have : (S.map idOf).set i (idOf S[i]) = S.map idOf := by
      apply List.ext_getElem (by simp)
      intro n h1 h2
      by_cases hn : i = n
      · subst hn
        simp
      · simp [List.getElem_set, hn]
    rw [this]
    exact hdist

theorem mergeTrees_storeOk (S incoming merged : List JVal) (hrec : Records S)
    (hdist : DistinctIds S) (h : mergeTrees S incoming = .ok merged) :
    Records merged ∧ DistinctIds merged := by
  have hkeys : ((S.map (fun t => (idOf t, t))).map Prod.fst).Nodup := by
    rw [entries_keys]
    exact hdist
  have hvals : ∀ e ∈ S.map (fun t => (idOf t, t)),
      idOf e.2 = e.1 ∧ e.2 ≠ .null ∧ e.2 ≠ .undefined := by
    intro e he
    obtain ⟨t, ht, rfl⟩ := List.mem_map.1 he
    exact ⟨rfl, hrec t ht⟩
  simp only [mergeTrees, idEntries_of_records S hrec, newMap_of_nodup _ hkeys,
    Except.ok.injEq] at h
  have hinv := foldl_mergeStep_inv incoming _ hkeys hvals
  subst h
  constructor
  · intro x hx
    obtain ⟨e, he, rfl⟩ := List.mem_map.1 hx
    exact (hinv.2 e he).2
  · unfold DistinctIds
    rw [List.map_map]
    have : List.map (idOf ∘ Prod.snd) (List.foldl mergeStep (S.map (fun t => (idOf t, t))) incoming)
        = List.map Prod.fst (List.foldl mergeStep (S.map (fun t => (idOf t, t))) incoming) := by
      apply List.map_congr_left
      intro e he
      exact (hinv.2 e he).1
    rw [this]
    exact hinv.1

theorem importData_trees (P : Platform) (st : AppState) (d : JVal) :
    (importData P st d).state = st ∨
      ∃ current incoming merged, st.trees = .arr current ∧
        mergeTrees current incoming = .ok merged ∧
        (importData P st d).state.trees = .arr merged := by
  unfold importData
  split
  · exact Or.inl rfl
  · split
    · split
      · exact Or.inl rfl
      · rename_i _ incoming _ _ current hcur _ merged hm
        refine Or.inr ⟨current, incoming, merged, hcur, hm, ?_⟩
        split <;> rename_i heq <;> exact (persistAndRefresh_eq P _ _ _ _ heq).1
    · exact Or.inl rfl
  · exact Or.inl rfl

/-- The import keeps the store an array of records with pairwise distinct ids. -/
theorem importData_storeOk (P : Platform) (st : AppState) (d : JVal) (h : StoreOk st) :
    StoreOk (importData P st d).state := by
  rcases importData_trees P st d with he | ⟨current, incoming, merged, hcur, hm, ht⟩
  · rw [he]
    exact h
  · obtain ⟨S, hS, hrec, hdist⟩ := h
    have : current = S := by
      rw [hcur] at hS
      exact JVal.arr.inj hS
    subst this
    exact ⟨merged, ht, mergeTrees_storeOk current incoming merged hrec hdist hm⟩

theorem deleteClick_trees (P : Platform) (st : AppState) (confirmed : Bool) :
    (deleteClick P st confirmed).state.trees = st.trees ∨
      ∃ xs id rest, st.trees = .arr xs ∧ filterOthers xs id = .ok rest ∧
        (deleteClick P st confirmed).state.trees = .arr rest := by
  unfold deleteClick
  split
  · exact Or.inl rfl
  · split
    · exact Or.inl rfl
    · split
      · exact Or.inl rfl
      · exact Or.inl rfl
      · simp only
        split
        · exact Or.inl rfl
        · split
          · split
            · exact Or.inl rfl
            · rename_i xs hxs _ rest hrest
              refine Or.inr ⟨xs, _, rest, hxs, hrest, ?_⟩
              split
              · rfl
              · split
                · rfl
                · rename_i st5 h5
                  rw [saveTreesLocal_frame P _ st5 h5]
                  split
                  · rfl
                  · split <;> rfl
          · exact Or.inl rfl

/-- A delete keeps the store an array of records with pairwise distinct ids. -/
theorem deleteClick_storeOk (P : Platform) (st : AppState) (confirmed : Bool)
    (h : StoreOk st) : StoreOk (deleteClick P st confirmed).state := by
  obtain ⟨S, hS, hrec, hdist⟩ := h
  rcases deleteClick_trees P st confirmed with he | ⟨xs, id, rest, hxs, hf, ht⟩
  · exact ⟨S, he.trans hS, hrec, hdist⟩
  · have : xs = S := by
      rw [hxs] at hS
      exact JVal.arr.inj hS
    subst this
    rw [filterOthers_of_records xs id hrec] at hf
    have hrest := Except.ok.inj hf
    subst hrest
    exact ⟨_, ht, records_filter xs _ hrec, distinctIds_filter xs _ hdist⟩

theorem saveCreate_trees (P : Platform) (st : AppState) (f : Form) (lat lng : JNum)
    (quartier : JVal) (photos S : List JVal) (hS : st.trees = .arr S) :
    (saveCreate P st f lat lng quartier photos).state.trees
      = .arr (newTree P f lat lng quartier photos :: S) := by
  simp only [saveCreate, syncToSheets_newTree, hS]
  split <;> rename_i heq <;> exact (persistAndRefresh_eq P _ _ _ _ heq).1

theorem saveUpdate_trees (P : Platform) (st : AppState) (f : Form) (lat lng : JNum)
    (quartier : JVal) (photos S : List JVal) (hS : st.trees = .arr S) :
    (saveUpdate P st f lat lng quartier photos).state.trees = st.trees ∨
      ∃ i t, i < S.length ∧ idOf t = idOf (S.getD i .undefined) ∧
        ((S.getD i .undefined ≠ .null ∧ S.getD i .undefined ≠ .undefined) →
          (t ≠ .null ∧ t ≠ .undefined)) ∧
        (saveUpdate P st f lat lng quartier photos).state.trees = .arr (S.set i t) := by
  unfold saveUpdate
  rw [hS]
  simp only
  split
  · exact Or.inl hS
  · exact Or.inl hS
  · rename_i i hi
    have hlt := findIndexById_lt S _ i hi
    split
    · exact Or.inr ⟨i, _, hlt, idOf_overwriteFields P f lat lng quartier _,
        overwriteFields_ne_nullish P f lat lng quartier _, rfl⟩
    · split
      · exact Or.inr ⟨i, _, hlt, idOf_overwriteFields P f lat lng quartier _,
          overwriteFields_ne_nullish P f lat lng quartier _, rfl⟩
      · split
        · refine Or.inr ⟨i, _, hlt, ?_, ?_, (syncToSheets_frame P _ _).1⟩
          · rw [idOf_assign _ _ _ (by decide), idOf_overwriteFields]
          · intro h
            exact assign_ne_nullish _ _ _ (overwriteFields_ne_nullish P f lat lng quartier _ h)
        · rename_i _ _ _ _ oldPhotos _ _ _ _
          refine Or.inr ⟨i, assign (overwriteFields P f lat lng quartier (S.getD i .undefined))
            "photos" (.arr (oldPhotos ++ photos)), hlt, ?_, ?_, ?_⟩
          · rw [idOf_assign _ _ _ (by decide), idOf_overwriteFields]
          · intro h
            exact assign_ne_nullish _ _ _ (overwriteFields_ne_nullish P f lat lng quartier _ h)
          · split <;> rename_i heq <;>
              exact (persistAndRefresh_eq P _ _ _ _ heq).1.trans (syncToSheets_frame P _ _).1

/-- A save keeps the store an array of records with pairwise distinct ids, provided that the id
generated for a new record is not the id of a record of the store. -/
theorem saveClick_storeOk (P : Platform) (st : AppState) (f : Form) (h : StoreOk st)
    (hfresh : ∀ S, st.trees = .arr S → JVal.str f.uid ∉ S.map idOf) :
    StoreOk (saveClick P st f).state := by
  obtain ⟨S, hS, hrec, hdist⟩ := h
  unfold saveClick
  simp only
  split
  · exact ⟨S, hS, hrec, hdist⟩
  · split
    · exact ⟨S, hS, hrec, hdist⟩
    · rename_i photos _
      split
      · rcases saveUpdate_trees P st f _ _ _ photos S hS with he | ⟨i, t, hi, hid, hnn, ht⟩
        · exact ⟨S, he.trans hS, hrec, hdist⟩
        · have hget : S.getD i .undefined = S[i] := by
            simp [List.getD_eq_getElem?_getD, List.getElem?_eq_getElem hi]
          rw [hget] at hid hnn
          have hok := storeOk_set S i t hi hrec hdist hid (hnn (hrec _ (List.getElem_mem _)))
          exact ⟨_, ht, hok.1, hok.2⟩
      · refine ⟨_, saveCreate_trees P st f _ _ _ photos S hS, ?_, ?_⟩
        · intro x hx
          rcases List.mem_cons.1 hx with e | hmem
          · rw [e]
            simp [newTree]
          · exact hrec x hmem
        · unfold DistinctIds
          rw [List.map_cons, List.nodup_cons]
          refine ⟨?_, hdist⟩
          have : idOf (newTree P f (P.parseFloat f.lat) (P.parseFloat f.lng)
              (getQuartierFromLatLng P (P.parseFloat f.lat) (P.parseFloat f.lng)) photos)
              = .str f.uid := by
            simp [newTree, idOf, getProp, List.lookup]
          rw [this]
          exact hfresh S hS

/-- An undo keeps the store an array of records with pairwise distinct ids, provided that no
record of the store has the id of the record held by the buffer. -/
theorem undoClick_storeOk (P : Platform) (st : AppState) (h : StoreOk st)
    (hid : ∀ S, st.trees = .arr S → idOf st.lastDeletedTree ∉ S.map idOf) :
    StoreOk (undoClick P st).state := by
  obtain ⟨S, hS, hrec, hdist⟩ := h
  by_cases htt : truthy st.lastDeletedTree = true
  case neg =>
    have hsame : undoClick P st = done st := by
      simp [undoClick, htt]
    rw [hsame]
    exact ⟨S, hS, hrec, hdist⟩
  case pos =>
    have hnn : st.lastDeletedTree ≠ .null ∧ st.lastDeletedTree ≠ .undefined := by
      cases hb : st.lastDeletedTree <;> simp_all [truthy]
    refine ⟨st.lastDeletedTree :: S, (undoClick_of_truthy P st S _ hS rfl htt).1, ?_, ?_⟩
    · intro x hx
      rcases List.mem_cons.1 hx with e | hmem
      · rw [e]
        exact hnn
      · exact hrec x hmem
    · unfold DistinctIds
      rw [List.map_cons, List.nodup_cons]
      exact ⟨hid S hS, hdist⟩

/-- Every action other than an undo keeps the ids of the store pairwise distinct, provided that
the id generated by a save is not the id of a record of the store. -/
theorem step_storeOk_of_not_undo (P : Platform) (st : AppState) (a : Action) (h : StoreOk st)
    (hundo : a ≠ .undo)
    (hfresh : ∀ f S, a = .save f → st.trees = .arr S → JVal.str f.uid ∉ S.map idOf) :
    StoreOk (step P st a) := by
  cases a with
  | select id => exact h
  | save f => exact saveClick_storeOk P st f h (fun S hS => hfresh f S rfl hS)
  | delete confirmed => exact deleteClick_storeOk P st confirmed h
  | undo => exact absurd rfl hundo
  | importJson data => exact importData_storeOk P st data h

/-! ## C11: merge with duplicates and malformed entries -/

theorem mapSet_mem_self (m : JsMap) (k v : JVal) : (k, v) ∈ mapSet m k v := by
  induction m with
  | nil => simp [mapSet]
  | cons e rest ih =>
    obtain ⟨k0, v0⟩ := e
    by_cases hk : k0 = k
    · subst hk
      simp [mapSet, sameValueZero]
    · simp only [mapSet, sameValueZero, hk, decide_False, if_false, Bool.false_eq_true]
      exact List.mem_cons_of_mem _ ih

theorem mapSet_mem_of_ne (m : JsMap) (k v : JVal) (e : JVal × JVal) (he : e ∈ m)
    (hne : e.1 ≠ k) : e ∈ mapSet m k v := by
  induction m with
  | nil => simp at he
  | cons e0 rest ih =>
    obtain ⟨k0, v0⟩ := e0
    by_cases hk : k0 = k
    · subst hk
      rcases List.mem_cons.1 he with h | h
      · rw [h] at hne
        exact absurd rfl hne
      · simp only [mapSet, sameValueZero, decide_True, if_true]
        exact List.mem_cons_of_mem _ h
    · simp only [mapSet, sameValueZero, hk, decide_False, if_false, Bool.false_eq_true]
      rcases List.mem_cons.1 he with h | h
      · rw [h]
        exact List.mem_cons_self _ _
      · exact List.mem_cons_of_mem _ (ih h)

theorem mergeStep_of_invalid (m : JsMap) (t : JVal)
    (h : (truthy t && truthy (idOf t)) = false) : mergeStep m t = m := by
  unfold mergeStep
  split
  · rfl
  · rename_i ht
    have htt : truthy t = true := by simpa using ht
    have hnn : t ≠ .null ∧ t ≠ .undefined := by
      cases t <;> simp_all [truthy]
    have hid : truthy (idOf t) = false := by simpa [htt] using h
    rw [getProp_id_of_ne t hnn]
    simp [hid]

theorem mergeStep_of_valid (m : JsMap) (t : JVal) (h : truthy (idOf t) = true) :
    mergeStep m t = mapSet m (idOf t) t :=
  mergeStep_of_truthy_id m t (idOf t)
    (getProp_id_of_ne t (ne_nullish_of_truthy_id t h)) h

theorem foldl_mergeStep_filter (incoming : List JVal) (m : JsMap) :
    incoming.foldl mergeStep m
      = (incoming.filter (fun t => truthy t && truthy (idOf t))).foldl mergeStep m := by
  induction incoming generalizing m with
  | nil => rfl
  | cons t rest ih =>
    by_cases h : (truthy t && truthy (idOf t)) = true
    · simp only [List.filter_cons, h, if_true, List.foldl_cons]
      exact ih _
    · have hf : (truthy t && truthy (idOf t)) = false := by simpa using h
      simp only [List.filter_cons, hf, if_false, Bool.false_eq_true, List.foldl_cons,
        mergeStep_of_invalid m t hf]
      exact ih _

theorem foldl_mergeStep_last (incoming : List JVal) (m : JsMap) (k : JVal)
    (hk : truthy k = true) (hmem : k ∈ incoming.map idOf) :
    ∃ r, (incoming.filter (fun t => idOf t = k)).getLast? = some r ∧
      (k, r) ∈ incoming.foldl mergeStep m := by
  induction incoming using List.reverseRecOn with
  | nil => simp at hmem
  | append_singleton rest t ih =>
    rw [List.foldl_append, List.foldl_cons, List.foldl_nil, List.filter_append]
    by_cases ht : idOf t = k
    · refine ⟨t, ?_, ?_⟩
      · simp [List.filter_cons, ht]
      · rw [mergeStep_of_valid _ t (ht ▸ hk), ht]
        exact mapSet_mem_self _ k t
    · have hrest : k ∈ rest.map idOf := by
        rw [List.map_append, List.mem_append] at hmem
        rcases hmem with h | h
        · exact h
        · simp at h
          exact absurd h.symm ht
      obtain ⟨r, hr, hin⟩ := ih hrest
      refine ⟨r, ?_, ?_⟩
      · simp [List.filter_cons, ht, hr]
      · by_cases hv : truthy (idOf t) = true
        · rw [mergeStep_of_valid _ t hv]
          exact mapSet_mem_of_ne _ _ _ _ hin (fun e => ht e.symm)
        · rw [mergeStep_of_invalid _ t (by simp [hv])]
          exact hin

theorem filter_id_eq_singleton (T : List JVal) (r : JVal) (hd : DistinctIds T) (hr : r ∈ T) :
    T.filter (fun x => idOf x = idOf r) = [r] := by
  induction T with
  | nil => simp at hr
  | cons x rest ih =>
    have hd2 : (idOf x ∉ rest.map idOf) ∧ DistinctIds rest := by
      simpa [DistinctIds] using hd
    by_cases hx : x = r
    · subst hx
      have hnil : rest.filter (fun y => idOf y = idOf x) = [] := by
        rw [List.filter_eq_nil_iff]
        intro y hy hc
        exact hd2.1 (by rw [← of_decide_eq_true hc]; exact List.mem_map_of_mem idOf hy)
      simp [List.filter_cons, hnil]
    · have hmem : r ∈ rest := by
        rcases List.mem_cons.1 hr with h | h
        · exact absurd h.symm hx
        · exact h
      have hne : idOf x ≠ idOf r := by
        intro e
        exact hd2.1 (e ▸ List.mem_map_of_mem idOf hmem)
      simp [List.filter_cons, hne, ih hd2.2 hmem]

/-- C11. Merge with duplicates and malformed entries: for every current collection `S` of
records and every incoming sequence `I`, the merge returns a collection `T` whose ids are
pairwise distinct; for each truthy (non-empty) id `k` carried by an entry of `I`, the records of
`T` with the id `k` are exactly one record, the last entry of `I` that carries `k`; and the
entries of `I` that are falsy (`null`) or have no truthy id contribute nothing: the merge
without them returns the same `T`. -/
theorem merge_last_incoming_wins (S I : List JVal) (hrec : Records S) :
    ∃ T, mergeTrees S I = .ok T ∧ DistinctIds T ∧
      (∀ k, truthy k = true → k ∈ I.map idOf →
        ∃ r, (I.filter (fun t => idOf t = k)).getLast? = some r ∧
          T.filter (fun x => idOf x = k) = [r]) ∧
      mergeTrees S (I.filter (fun t => truthy t && truthy (idOf t))) = .ok T := by
  have hm0 := newMap_entries_inv S hrec
  have hinv := foldl_mergeStep_inv I _ hm0.1 hm0.2
  have hdist : DistinctIds
      ((I.foldl mergeStep (newMap (S.map (fun t => (idOf t, t))))).map Prod.snd) := by
    unfold DistinctIds
    rw [List.map_map]
    have : List.map (idOf ∘ Prod.snd) (I.foldl mergeStep (newMap (S.map (fun t => (idOf t, t)))))
        = List.map Prod.fst (I.foldl mergeStep (newMap (S.map (fun t => (idOf t, t))))) := by
      apply List.map_congr_left
      intro e he
      exact (hinv.2 e he).1
    rw [this]
    exact hinv.1
  refine ⟨(I.foldl mergeStep (newMap (S.map (fun t => (idOf t, t))))).map Prod.snd, ?_, hdist,
    ?_, ?_⟩
  · simp [mergeTrees, idEntries_of_records S hrec]
  · intro k hk hmem
    obtain ⟨r, hlast, hin⟩ := foldl_mergeStep_last I
      (newMap (S.map (fun t => (idOf t, t)))) k hk hmem
    refine ⟨r, hlast, ?_⟩
    have hr : r ∈ (I.foldl mergeStep (newMap (S.map (fun t => (idOf t, t))))).map Prod.snd :=
      List.mem_map_of_mem Prod.snd hin
    have hid : idOf r = k := (hinv.2 (k, r) hin).1
    rw [← hid]
    exact filter_id_eq_singleton _ r hdist hr
  · simp [mergeTrees, idEntries_of_records S hrec, ← foldl_mergeStep_filter]

/-- Witness of C11: the store `[a]` merged with `null`, a first `b`, a record with an empty id,
a second `b` and a record without id gives `[a, b]` with the second `b`. -/
theorem merge_last_incoming_wins_witness :
    mergeTrees [sampleTree "a" "x"]
        [.null, sampleTree "b" "y", sampleTree "" "w", sampleTree "b" "z",
          .obj [("species", .str "v")]]
        = .ok [sampleTree "a" "x", sampleTree "b" "z"] ∧
      ∃ T, mergeTrees [sampleTree "a" "x"]
          [.null, sampleTree "b" "y", sampleTree "" "w", sampleTree "b" "z",
            .obj [("species", .str "v")]] = .ok T ∧
        DistinctIds T ∧
        (∀ k, truthy k = true →
          k ∈ [JVal.null, sampleTree "b" "y", sampleTree "" "w", sampleTree "b" "z",
            .obj [("species", .str "v")]].map idOf →
          ∃ r, ([JVal.null, sampleTree "b" "y", sampleTree "" "w", sampleTree "b" "z",
              .obj [("species", .str "v")]].filter (fun t => idOf t = k)).getLast? = some r ∧
            T.filter (fun x => idOf x = k) = [r]) ∧
        mergeTrees [sampleTree "a" "x"]
          ([JVal.null, sampleTree "b" "y", sampleTree "" "w", sampleTree "b" "z",
            .obj [("species", .str "v")]].filter (fun t => truthy t && truthy (idOf t)))
          = .ok T :=
  ⟨by decide,
    merge_last_incoming_wins [sampleTree "a" "x"]
      [.null, sampleTree "b" "y", sampleTree "" "w", sampleTree "b" "z",
        .obj [("species", .str "v")]] (by decide)⟩

/-! ## C12: upsert frame -/

theorem lookup_setField (ps : List (String × JVal)) (k k' : String) (v : JVal) :
    (setField ps k v).lookup k' = if k = k' then some v else ps.lookup k' := by
  induction ps with
  | nil =>
    by_cases h : k = k'
    · subst h
      simp [setField, List.lookup]
    · have : (k' == k) = false := by simp [Ne.symm h]
      simp [setField, List.lookup, this, h]
  | cons e rest ih =>
    obtain ⟨k0, v0⟩ := e
    by_cases h0 : k0 = k
    · subst h0
      by_cases h : k0 = k'
      · subst h
        simp [setField, List.lookup]
      · have : (k' == k0) = false := by simp [Ne.symm h]
        simp [setField, List.lookup, this, h]
    · simp only [setField, h0, if_false, List.lookup]
      rw [ih]
      by_cases h : k = k'
      · subst h
        have : (k == k0) = false := by simp [Ne.symm h0]
        simp [this]
      · simp [h]

theorem findIndexById_found (xs : List JVal) (id : JVal) (i : Nat)
    (h : findIndexById xs id = .ok (some i)) :
    ∃ k, getProp (xs.getD i .undefined) "id" = .ok k ∧ strictEq k id = true := by
  induction xs generalizing i with
  | nil => simp [findIndexById] at h
  | cons t rest ih =>
    simp only [findIndexById] at h
    cases hk : getProp t "id" with
    | error e => simp [hk] at h
    | ok k =>
      simp only [hk] at h
      by_cases hs : strictEq k id = true
      · simp [hs] at h
        subst h
        exact ⟨k, by simpa using hk, hs⟩
      · simp only [hs, if_false, Bool.false_eq_true] at h
        cases hr : findIndexById rest id with
        | error e => simp [hr] at h
        | ok o =>
          cases o with
          | none => simp [hr] at h
          | some j =>
            simp [hr] at h
            subst h
            simpa using ih j hr

theorem strictEq_eq (a b : JVal) (h : strictEq a b = true) : a = b := by
  simp [strictEq] at h
  exact h.1

theorem selected_isObj (xs : List JVal) (id : JVal) (i : Nat) (hid : truthy id = true)
    (h : findIndexById xs id = .ok (some i)) : ∃ ps, xs.getD i .undefined = .obj ps := by
  obtain ⟨k, hk, hs⟩ := findIndexById_found xs id i h
  have hkid := strictEq_eq k id hs
  subst hkid
  exact truthy_id_isObj _ k hk hid

theorem getD_eq_getElem (xs : List JVal) (i : Nat) (hi : i < xs.length) :
    xs.getD i .undefined = xs[i] := by
  simp [List.getD_eq_getElem?_getD, List.getElem?_eq_getElem hi]

theorem updated_record_frame (P : Platform) (f : Form) (lat lng : JNum) (quartier : JVal)
    (ps : List (String × JVal)) (newPhotos : List JVal) (key : String) (hkey : key ∉ formKeys) :
    getProp (assign (overwriteFields P f lat lng quartier (.obj ps)) "photos" (.arr newPhotos))
      key = getProp (.obj ps) key := by
  simp only [formKeys, List.mem_cons, List.mem_singleton, not_or, List.mem_nil_iff,
    or_false] at hkey
  obtain ⟨h1, h2, h3, h4, h5, h6, h7, h8, h9, h10, h11, h12⟩ := hkey
  simp [overwriteFields, assign, getProp, lookup_setField, Ne.symm h1, Ne.symm h2, Ne.symm h3,
    Ne.symm h4, Ne.symm h5, Ne.symm h6, Ne.symm h7, Ne.symm h8, Ne.symm h9, Ne.symm h10,
    Ne.symm h11, Ne.symm h12]

theorem saveUpdate_of_found (P : Platform) (st : AppState) (f : Form) (lat lng : JNum)
    (quartier : JVal) (photos S : List JVal) (i : Nat) (ps : List (String × JVal))
    (oldPhotos : List JVal) (hst : st.trees = .arr S)
    (hfound : findIndexById S st.selectedId = .ok (some i))
    (hget : S.getD i .undefined = .obj ps) (hph : previousPhotos (.obj ps) = .ok oldPhotos) :
    (saveUpdate P st f lat lng quartier photos).state.trees
        = .arr (S.set i (assign (overwriteFields P f lat lng quartier (.obj ps)) "photos"
            (.arr (oldPhotos ++ photos)))) := by
  have hold : getProp (overwriteFields P f lat lng quartier (.obj ps)) "photos"
      = .ok ((ps.lookup "photos").getD .undefined) := by
    simp [overwriteFields, assign, getProp, lookup_setField]
  have hph2 : spreadArray (if truthy ((ps.lookup "photos").getD .undefined) = true
      then (ps.lookup "photos").getD .undefined else .arr []) = .ok oldPhotos := by
    simpa [previousPhotos, getProp] using hph
  have hid : ∃ tid, getProp (assign (overwriteFields P f lat lng quartier (.obj ps)) "photos"
      (.arr (oldPhotos ++ photos))) "id" = .ok tid := by
    simp [overwriteFields, assign, getProp]
  obtain ⟨tid, htid⟩ := hid
  unfold saveUpdate
  simp only [hst, hfound, hget, hold, hph2, htid]
  split <;> rename_i heq <;>
    exact (persistAndRefresh_eq P _ _ _ _ heq).1.trans (syncToSheets_frame P _ _).1

/-- C12, counterexample. With finite coordinates and a photo file that the reader cannot read,
`readFilesAsDataUrls` rejects and the handler ends there: with no selection the store stays `S`,
no record is prepended; with the record `a` selected the store stays `S` as well, the form
fields are not written. And when the `photos` of the selected record is the number `5`, the
spread `[...t.photos]` raises once the other fields are written: the photos stay `5`, nothing is
appended. -/
theorem save_keeps_store_on_unreadable_photo :
    (numeralPlatform.parseFloat (sampleForm [sampleFile none]).lat).isFinite = true ∧
      (numeralPlatform.parseFloat (sampleForm [sampleFile none]).lng).isFinite = true ∧
      (saveClick numeralPlatform { AppState.init none with trees := .arr [sampleTree "a" "x"] }
          (sampleForm [sampleFile none])).state.trees = .arr [sampleTree "a" "x"] ∧
      (saveClick numeralPlatform { AppState.init none with trees := .arr [sampleTree "a" "x"] }
          (sampleForm [sampleFile none])).raised = some (.error "Lecture fichier impossible") ∧
      (saveClick numeralPlatform
          { AppState.init none with trees := .arr [sampleTree "a" "x"], selectedId := .str "a" }
          (sampleForm [sampleFile none])).state.trees = .arr [sampleTree "a" "x"] ∧
      (saveClick numeralPlatform
          { AppState.init none with
            trees := .arr [.obj [("id", .str "a"), ("photos", .num (.fin 5))]],
            selectedId := .str "a" }
          (sampleForm [sampleFile (some "data:1")])).raised = some .typeError ∧
      (saveClick numeralPlatform
          { AppState.init none with
            trees := .arr [.obj [("id", .str "a"), ("photos", .num (.fin 5))]],
            selectedId := .str "a" }
          (sampleForm [sampleFile (some "data:1")])).state.trees
        = .arr [overwriteFields numeralPlatform (sampleForm [sampleFile (some "data:1")])
            (numeralPlatform.parseFloat "50") (numeralPlatform.parseFloat "3")
            (.str "Inconnu") (.obj [("id", .str "a"), ("photos", .num (.fin 5))])] ∧
      getProp (overwriteFields numeralPlatform (sampleForm [sampleFile (some "data:1")])
          (numeralPlatform.parseFloat "50") (numeralPlatform.parseFloat "3")
          (.str "Inconnu") (.obj [("id", .str "a"), ("photos", .num (.fin 5))])) "photos"
        = .ok (.num (.fin 5)) := by
  decide

/-- C12, amended. Upsert frame: for every store `S` and every save with finite coordinates whose
photo files are all read. With no selection, the store becomes the record built from the form
followed by `S` unchanged, one record more. With a selection that `getTreeById` finds at
position `i`, and the `photos` of that record an array or falsy (absent), the store keeps its
length and every other position; the record at position `i` keeps its `id`, its `createdAt` and
every property that is not a form property, its form properties hold the values of the form,
and its photos are its previous photos followed by the new ones. This holds whether or not the
cache write and the rendering that end the handler raise. -/
theorem save_upsert_frame (P : Platform) (st : AppState) (f : Form) (S photos : List JVal)
    (hst : st.trees = .arr S) (hlat : (P.parseFloat f.lat).isFinite = true)
    (hlng : (P.parseFloat f.lng).isFinite = true)
    (hfiles : readFilesAsDataUrls f.files = .ok photos) :
    (truthy st.selectedId = false →
      (saveClick P st f).state.trees
          = .arr (newTree P f (P.parseFloat f.lat) (P.parseFloat f.lng)
              (getQuartierFromLatLng P (P.parseFloat f.lat) (P.parseFloat f.lng)) photos :: S) ∧
        (newTree P f (P.parseFloat f.lat) (P.parseFloat f.lng)
          (getQuartierFromLatLng P (P.parseFloat f.lat) (P.parseFloat f.lng)) photos
            :: S).length = S.length + 1) ∧
      (truthy st.selectedId = true →
        ∀ (i : Nat) (hi : i < S.length) (old : JVal) (oldPhotos : List JVal),
          findIndexById S st.selectedId = .ok (some i) →
          getProp S[i] "photos" = .ok old →
          (old = .arr oldPhotos ∨ (truthy old = false ∧ oldPhotos = [])) →
          ∃ t', (saveClick P st f).state.trees = .arr (S.set i t') ∧
            (S.set i t').length = S.length ∧
            (∀ j, j ≠ i → (S.set i t')[j]? = S[j]?) ∧
            getProp t' "id" = getProp S[i] "id" ∧
            getProp t' "createdAt" = getProp S[i] "createdAt" ∧
            (∀ key, key ∉ formKeys → getProp t' key = getProp S[i] key) ∧
            getProp t' "lat" = .ok (.num (P.parseFloat f.lat)) ∧
            getProp t' "lng" = .ok (.num (P.parseFloat f.lng)) ∧
            getProp t' "quartier"
              = .ok (getQuartierFromLatLng P (P.parseFloat f.lat) (P.parseFloat f.lng)) ∧
            getProp t' "species" = .ok (.str (jsTrim f.species)) ∧
            getProp t' "height" = .ok (numberOrNull P f.height) ∧
            getProp t' "dbh" = .ok (numberOrNull P f.dbh) ∧
            getProp t' "secteur" = .ok (.str f.secteur) ∧
            getProp t' "address" = .ok (.str (jsTrim f.address)) ∧
            getProp t' "tags" = .ok (.arr ((normalizeTags (some f.tags)).map JVal.str)) ∧
            getProp t' "comment" = .ok (.str (jsTrim f.comment)) ∧
            getProp t' "updatedAt" = .ok (natNum f.now) ∧
            getProp t' "photos" = .ok (.arr (oldPhotos ++ photos))) := by
  have hrej : (!(P.parseFloat f.lat).isFinite || !(P.parseFloat f.lng).isFinite) = false := by
    simp [hlat, hlng]
  constructor
  · intro hsel
    have hsave : saveClick P st f = saveCreate P st f (P.parseFloat f.lat) (P.parseFloat f.lng)
        (getQuartierFromLatLng P (P.parseFloat f.lat) (P.parseFloat f.lng)) photos := by
      simp [saveClick, hrej, hfiles, hsel]
    rw [hsave]
    exact ⟨saveCreate_trees P st f _ _ _ photos S hst, by simp⟩
  · intro hsel i hi old oldPhotos hfound hold hshape
    have hsave : saveClick P st f = saveUpdate P st f (P.parseFloat f.lat) (P.parseFloat f.lng)
        (getQuartierFromLatLng P (P.parseFloat f.lat) (P.parseFloat f.lng)) photos := by
      simp [saveClick, hrej, hfiles, hsel]
    obtain ⟨ps, hps⟩ := selected_isObj S st.selectedId i hsel hfound
    have hSi : S[i] = .obj ps := by
      rw [← getD_eq_getElem S i hi]
      exact hps
    rw [hSi] at hold
    have hph : previousPhotos (.obj ps) = .ok oldPhotos := by
      rcases hshape with h | ⟨h, hnil⟩
      · simp [previousPhotos, hold, h, truthy, spreadArray]
      · simp [previousPhotos, hold, h, hnil, spreadArray]
    have hupd := saveUpdate_of_found P st f (P.parseFloat f.lat) (P.parseFloat f.lng)
      (getQuartierFromLatLng P (P.parseFloat f.lat) (P.parseFloat f.lng)) photos S i ps
      oldPhotos hst hfound hps hph
    rw [hsave, hSi]
    refine ⟨_, hupd, by simp, ?_, ?_, ?_, ?_, ?_, ?_, ?_, ?_, ?_, ?_, ?_, ?_, ?_, ?_,
      ?_, ?_⟩
    · intro j hj
      simp [List.getElem?_set, Ne.symm hj]
    · exact updated_record_frame P f _ _ _ ps _ "id" (by decide)
    · exact updated_record_frame P f _ _ _ ps _ "createdAt" (by decide)
    · intro key hkey
      exact updated_record_frame P f _ _ _ ps _ key hkey
    all_goals simp [overwriteFields, assign, getProp, lookup_setField]

/-- Witness of C12 amended, on the store `[a, b]` where `b` holds one photo, with a form that
carries one readable photo file. With no selection the new record is prepended to `[a, b]`.
With `b` selected the store is `[a, t']`: `a` is untouched, `t'` has the id and the creation
time of `b`, the species of the form, and the photo of `b` followed by the new one. -/
theorem save_upsert_frame_witness :
    (saveClick numeralPlatform
        { AppState.init none with
          trees := .arr [sampleTree "a" "x", sampleTreeWithPhoto "b" "y"] }
        (sampleForm [sampleFile (some "data:1")])).state.trees
        = .arr (newTree numeralPlatform (sampleForm [sampleFile (some "data:1")])
            (numeralPlatform.parseFloat "50") (numeralPlatform.parseFloat "3")
            (getQuartierFromLatLng numeralPlatform (numeralPlatform.parseFloat "50")
              (numeralPlatform.parseFloat "3"))
            [samplePhoto "data:1"] :: [sampleTree "a" "x", sampleTreeWithPhoto "b" "y"]) ∧
      ∃ t', (saveClick numeralPlatform
          { AppState.init none with
            trees := .arr [sampleTree "a" "x", sampleTreeWithPhoto "b" "y"],
            selectedId := .str "b" }
          (sampleForm [sampleFile (some "data:1")])).state.trees
            = .arr [sampleTree "a" "x", t'] ∧
        getProp t' "id" = .ok (.str "b") ∧ getProp t' "createdAt" = .ok (natNum 7) ∧
        getProp t' "species" = .ok (.str "Chêne") ∧
        getProp t' "photos" = .ok (.arr [samplePhoto "data:0", samplePhoto "data:1"]) := by
  refine ⟨((save_upsert_frame numeralPlatform
    { AppState.init none with trees := .arr [sampleTree "a" "x", sampleTreeWithPhoto "b" "y"] }
    (sampleForm [sampleFile (some "data:1")])
    [sampleTree "a" "x", sampleTreeWithPhoto "b" "y"] [samplePhoto "data:1"] rfl (by decide)
    (by decide) rfl).1 (by decide)).1, ?_⟩
  obtain ⟨t', h⟩ := (save_upsert_frame numeralPlatform
    { AppState.init none with
      trees := .arr [sampleTree "a" "x", sampleTreeWithPhoto "b" "y"], selectedId := .str "b" }
    (sampleForm [sampleFile (some "data:1")])
    [sampleTree "a" "x", sampleTreeWithPhoto "b" "y"] [samplePhoto "data:1"] rfl (by decide)
    (by decide) rfl).2 (by decide) 1 (by decide) (.arr [samplePhoto "data:0"])
    [samplePhoto "data:0"] (by decide) (by decide) (Or.inl rfl)
  exact ⟨t', h.1, h.2.2.2.1.trans (by decide), h.2.2.2.2.1.trans (by decide),
    h.2.2.2.2.2.2.2.2.2.1.trans (by decide), h.2.2.2.2.2.2.2.2.2.2.2.2.2.2.2.2.2⟩

/-! ## Lemmas on splitting and trimming -/

theorem splitComma_ne_nil (cs : List Char) : splitComma cs ≠ [] := by
  cases cs with
  | nil => simp [splitComma]
  | cons c rest =>
    simp only [splitComma]
    split
    · simp
    · split <;> simp

theorem splitComma_eq_splitOn (cs : List Char) : splitComma cs = cs.splitOn ',' := by
  induction cs with
  | nil => rfl
  | cons c rest ih =>
    simp only [splitComma, List.splitOn, List.splitOnP_cons, beq_iff_eq]
    by_cases hc : c = ','
    · simp only [hc, if_true]
      rw [ih]
      rfl
    · simp only [hc, if_false]
      rw [ih]
      cases h : List.splitOn ',' rest with
      | nil => exact absurd h (List.splitOnP_ne_nil _ rest)
      | cons p ps =>
        have h2 : List.splitOnP (fun x => x == ',') rest = p :: ps := h
        simp [h2, List.modifyHead]

theorem mem_splitComma_subset (cs p : List Char) (hp : p ∈ splitComma cs) :
    ∀ c ∈ p, c ∈ cs ∧ c ≠ ',' := by
  induction cs generalizing p with
  | nil =>
    simp only [splitComma, List.mem_singleton] at hp
    subst hp
    simp
  | cons c rest ih =>
    simp only [splitComma] at hp
    by_cases hc : c = ','
    · simp only [hc, if_true, List.mem_cons] at hp
      rcases hp with h | h
      · subst h
        simp
      · intro x hx
        exact ⟨List.mem_cons_of_mem _ (ih p h x hx).1, (ih p h x hx).2⟩
    · simp only [hc, if_false] at hp
      cases hs : splitComma rest with
      | nil => exact absurd hs (splitComma_ne_nil rest)
      | cons q qs =>
        rw [hs] at hp ih
        simp only [List.mem_cons] at hp
        rcases hp with h | h
        · subst h
          intro x hx
          rcases List.mem_cons.1 hx with e | e
          · rw [e]
            exact ⟨List.mem_cons_self _ _, hc⟩
          · have := ih q (List.mem_cons_self _ _) x e
            exact ⟨List.mem_cons_of_mem _ this.1, this.2⟩
        · intro x hx
          have := ih p (List.mem_cons_of_mem _ h) x hx
          exact ⟨List.mem_cons_of_mem _ this.1, this.2⟩

theorem trimChars_eq (p : List Char) :
    trimChars p = (p.dropWhile isJsSpace).rdropWhile isJsSpace :=
  rfl

theorem trimChars_subset (p : List Char) : ∀ c ∈ trimChars p, c ∈ p := by
  intro c hc
  rw [trimChars_eq] at hc
  exact (List.dropWhile_sublist isJsSpace).subset
    ((List.rdropWhile_prefix isJsSpace _).sublist.subset hc)

theorem trimChars_head (p : List Char) (c : Char) (h : (trimChars p).head? = some c) :
    isJsSpace c = false := by
  obtain ⟨t, ht⟩ := List.rdropWhile_prefix isJsSpace (p.dropWhile isJsSpace)
  rw [← trimChars_eq] at ht
  have hd : (p.dropWhile isJsSpace).head? = some c := by
    rw [← ht]
    cases hτ : trimChars p with
    | nil => simp [hτ] at h
    | cons x xs =>
      simp only [hτ, List.head?_cons, Option.some.injEq] at h
      simp [h]
  have := List.head?_dropWhile_not isJsSpace p
  rw [hd] at this
  exact this

theorem trimChars_last (p : List Char) (c : Char) (h : (trimChars p).getLast? = some c) :
    isJsSpace c = false := by
  unfold trimChars at h
  rw [List.getLast?_reverse] at h
  have := List.head?_dropWhile_not isJsSpace (p.dropWhile isJsSpace).reverse
  rw [h] at this
  exact this

theorem trimChars_of_spaces (p : List Char) (h : ∀ c ∈ p, isJsSpace c = true) :
    trimChars p = [] := by
  have : p.dropWhile isJsSpace = [] := List.dropWhile_eq_nil_iff.2 h
  simp [trimChars, this]

theorem mk_bne_empty (p : List Char) : (String.mk p != "") = decide (p ≠ []) := by
  cases p with
  | nil => rfl
  | cons c cs =>
    have : String.mk (c :: cs) ≠ "" := by
      intro e
      have := congrArg String.data e
      simp at this
    simp [this]

theorem normalizeTags_toList (s : Option String) :
    (normalizeTags s).map String.toList
      = ((splitComma (s.getD "").toList).map trimChars).filter (fun p => decide (p ≠ [])) := by
  unfold normalizeTags
  induction splitComma (s.getD "").toList with
  | nil => rfl
  | cons p ps ih =>
    simp only [List.map_cons, List.filter_cons, mk_bne_empty]
    split
    · simp only [List.map_cons]
      rw [ih]
      rfl
    · exact ih

theorem mem_normalizeTags (s : Option String) (t : String) (ht : t ∈ normalizeTags s) :
    t.toList ≠ [] ∧ ∃ p ∈ splitComma (s.getD "").toList, trimChars p = t.toList := by
  have hmem : t.toList ∈ (normalizeTags s).map String.toList := List.mem_map_of_mem _ ht
  rw [normalizeTags_toList] at hmem
  obtain ⟨h1, h2⟩ := List.mem_filter.1 hmem
  obtain ⟨p, hp, hpe⟩ := List.mem_map.1 h1
  exact ⟨by simpa using h2, p, hp, hpe⟩

/-! ## C13: tag normalisation -/

/-- C13. Tag normalisation: the characters of `normalizeTags(s)` are the pieces of `s` between
commas, each trimmed, without the empty ones, in their order (a missing input counts as the
empty text). Hence every tag is non-empty, neither starts nor ends with a white space
character and holds no comma; and the result is empty when `s` is made only of commas and white
space, in particular when it is empty or missing. -/
theorem normalizeTags_spec (s : Option String) :
    (normalizeTags s).map String.toList = splitTrimDrop (s.getD "").toList ∧
      (∀ t ∈ normalizeTags s,
        t ≠ "" ∧ (∀ c, t.toList.head? = some c → isJsSpace c = false) ∧
          (∀ c, t.toList.getLast? = some c → isJsSpace c = false) ∧ ',' ∉ t.toList) ∧
      ((∀ c ∈ (s.getD "").toList, c = ',' ∨ isJsSpace c = true) → normalizeTags s = []) ∧
      normalizeTags none = [] ∧ normalizeTags (some "") = [] := by
  refine ⟨?_, ?_, ?_, by decide, by decide⟩
  · rw [normalizeTags_toList, splitComma_eq_splitOn]
    rfl
  · intro t ht
    obtain ⟨hne, p, hp, hpe⟩ := mem_normalizeTags s t ht
    refine ⟨?_, ?_, ?_, ?_⟩
    · intro e
      rw [e] at hne
      exact hne rfl
    · intro c hc
      rw [← hpe] at hc
      exact trimChars_head p c hc
    · intro c hc
      rw [← hpe] at hc
      exact trimChars_last p c hc
    · intro hmem
      rw [← hpe] at hmem
      exact (mem_splitComma_subset _ p hp ',' (trimChars_subset p ',' hmem)).2 rfl
  · intro hall
    have hnil : (normalizeTags s).map String.toList = [] := by
      rw [normalizeTags_toList, List.filter_eq_nil_iff]
      intro q hq
      obtain ⟨p, hp, hpe⟩ := List.mem_map.1 hq
      have hsp : ∀ c ∈ p, isJsSpace c = true := by
        intro c hc
        have := mem_splitComma_subset _ p hp c hc
        rcases hall c this.1 with h | h
        · exact absurd h this.2
        · exact h
      rw [← hpe, trimChars_of_spaces p hsp]
      simp
    exact List.map_eq_nil_iff.1 hnil

/-- Witness of C13: the text ` , ,` holds only commas and white space and gives no tag. -/
theorem normalizeTags_spec_witness : normalizeTags (some " , ,") = [] :=
  (normalizeTags_spec (some " , ,")).2.2.1 (by decide)

/-! ## C14: tag edit round trip -/

theorem normalTag_of_mem (s : Option String) (t : String) (ht : t ∈ normalizeTags s) :
    NormalTag t := by
  obtain ⟨hne, p, hp, hpe⟩ := mem_normalizeTags s t ht
  refine ⟨?_, ?_, ?_, ?_⟩
  · intro e
    rw [e] at hne
    exact hne rfl
  · intro c hc
    rw [← hpe] at hc
    exact trimChars_head p c hc
  · intro c hc
    rw [← hpe] at hc
    exact trimChars_last p c hc
  · intro hmem
    rw [← hpe] at hmem
    exact (mem_splitComma_subset _ p hp ',' (trimChars_subset p ',' hmem)).2 rfl

theorem dropWhile_of_head (l : List Char) (h : ∀ c, l.head? = some c → isJsSpace c = false) :
    l.dropWhile isJsSpace = l := by
  cases l with
  | nil => rfl
  | cons c cs => simp [List.dropWhile, h c rfl]

theorem trimChars_of_normal (t : String) (h : NormalTag t) : trimChars t.toList = t.toList := by
  unfold trimChars
  rw [dropWhile_of_head t.toList h.2.1,
    dropWhile_of_head t.toList.reverse (by simpa [List.head?_reverse] using h.2.2.1),
    List.reverse_reverse]

theorem toList_ne_nil_of_normal (t : String) (h : NormalTag t) : t.toList ≠ [] := by
  intro e
  apply h.1
  apply String.ext
  simpa using e

theorem splitComma_single (p : List Char) (h : ',' ∉ p) : splitComma p = [p] := by
  rw [splitComma_eq_splitOn]
  apply List.splitOnP_eq_single
  intro x hx e
  rw [beq_iff_eq] at e
  exact h (e ▸ hx)

theorem splitComma_append_comma (p rest : List Char) (h : ',' ∉ p) :
    splitComma (p ++ ',' :: rest) = p :: splitComma rest := by
  rw [splitComma_eq_splitOn, splitComma_eq_splitOn]
  apply List.splitOnP_first
  · intro x hx e
    rw [beq_iff_eq] at e
    exact h (e ▸ hx)
  · simp

theorem map_trim_splitComma_space (rest : List Char) :
    (splitComma (' ' :: rest)).map trimChars = (splitComma rest).map trimChars := by
  have hsp : isJsSpace ' ' = true := by decide
  simp only [splitComma, show (' ' = ',') = False by decide, if_false]
  cases hs : splitComma rest with
  | nil => exact absurd hs (splitComma_ne_nil rest)
  | cons q qs =>
    simp [trimChars, List.dropWhile, hsp]

theorem toList_injective : Function.Injective String.toList := by
  intro a b h
  exact String.ext h

theorem tags_of_joinWith (P : Platform) (T : List String) (hT : ∀ t ∈ T, NormalTag t) :
    ((splitComma (joinWith P ", " (T.map JVal.str)).toList).map trimChars).filter
        (fun p => decide (p ≠ [])) = T.map String.toList := by
  induction T with
  | nil => rfl
  | cons t rest ih =>
    have ht := hT t (List.mem_cons_self _ _)
    have hrest : ∀ u ∈ rest, NormalTag u := fun u hu => hT u (List.mem_cons_of_mem _ hu)
    have hne := toList_ne_nil_of_normal t ht
    have hpos : decide (t.toList ≠ []) = true := by simpa using hne
    cases rest with
    | nil =>
      have hj : joinWith P ", " ([t].map JVal.str) = t := rfl
      rw [hj, splitComma_single _ ht.2.2.2, List.map_cons, List.map_nil, List.filter_cons,
        trimChars_of_normal t ht, if_pos hpos]
      rfl
    | cons u rest2 =>
      have hjoin : (joinWith P ", " ((t :: u :: rest2).map JVal.str)).toList
          = t.toList ++ ',' :: ' ' :: (joinWith P ", " ((u :: rest2).map JVal.str)).toList := by
        simp [joinWith, joinElem, String.toList]
      rw [hjoin, splitComma_append_comma _ _ ht.2.2.2, List.map_cons,
        map_trim_splitComma_space, List.filter_cons, trimChars_of_normal t ht, if_pos hpos]
      exact congrArg (List.cons t.toList) (ih hrest)

theorem tags_of_joinComma (P : Platform) (T : List String) (hT : ∀ t ∈ T, NormalTag t) :
    ((splitComma (joinComma P (T.map JVal.str)).toList).map trimChars).filter
        (fun p => decide (p ≠ [])) = T.map String.toList := by
  induction T with
  | nil => rfl
  | cons t rest ih =>
    have ht := hT t (List.mem_cons_self _ _)
    have hrest : ∀ u ∈ rest, NormalTag u := fun u hu => hT u (List.mem_cons_of_mem _ hu)
    have hne := toList_ne_nil_of_normal t ht
    have hpos : decide (t.toList ≠ []) = true := by simpa using hne
    cases rest with
    | nil =>
      have hj : joinComma P ([t].map JVal.str) = t := rfl
      rw [hj, splitComma_single _ ht.2.2.2, List.map_cons, List.map_nil, List.filter_cons,
        trimChars_of_normal t ht, if_pos hpos]
      rfl
    | cons u rest2 =>
      have hjoin : (joinComma P ((t :: u :: rest2).map JVal.str)).toList
          = t.toList ++ ',' :: (joinComma P ((u :: rest2).map JVal.str)).toList := by
        simp [joinComma, joinElem, String.toList]
      rw [hjoin, splitComma_append_comma _ _ ht.2.2.2, List.map_cons, List.filter_cons,
        trimChars_of_normal t ht, if_pos hpos]
      exact congrArg (List.cons t.toList) (ih hrest)

theorem normalizeTags_of_chars (text : String) (T : List String)
    (h : ((splitComma text.toList).map trimChars).filter (fun p => decide (p ≠ []))
      = T.map String.toList) : normalizeTags (some text) = T := by
  apply List.map_injective_iff.2 toList_injective
  rw [normalizeTags_toList]
  exact h

theorem tagsFieldText_of_array (P : Platform) (t : JVal) (xs : List JVal)
    (h : getProp t "tags" = .ok (.arr xs)) : tagsFieldText P t = .ok (joinWith P ", " xs) := by
  simp [tagsFieldText, h, truthy]

theorem saveClick_update_tags (P : Platform) (st : AppState) (f : Form) (S photos : List JVal)
    (i : Nat) (hi : i < S.length) (oldPhotos : List JVal) (hst : st.trees = .arr S)
    (hlat : (P.parseFloat f.lat).isFinite = true) (hlng : (P.parseFloat f.lng).isFinite = true)
    (hfiles : readFilesAsDataUrls f.files = .ok photos) (hsel : truthy st.selectedId = true)
    (hfound : findIndexById S st.selectedId = .ok (some i))
    (hph : previousPhotos S[i] = .ok oldPhotos) :
    ∃ t', (saveClick P st f).state.trees = .arr (S.set i t') ∧
      getProp t' "tags" = .ok (.arr ((normalizeTags (some f.tags)).map JVal.str)) := by
  have hrej : (!(P.parseFloat f.lat).isFinite || !(P.parseFloat f.lng).isFinite) = false := by
    simp [hlat, hlng]
  have hsave : saveClick P st f = saveUpdate P st f (P.parseFloat f.lat) (P.parseFloat f.lng)
      (getQuartierFromLatLng P (P.parseFloat f.lat) (P.parseFloat f.lng)) photos := by
    simp [saveClick, hrej, hfiles, hsel]
  obtain ⟨ps, hps⟩ := selected_isObj S st.selectedId i hsel hfound
  have hSi : S[i] = .obj ps := by
    rw [← getD_eq_getElem S i hi]
    exact hps
  rw [hSi] at hph
  have hupd := saveUpdate_of_found P st f (P.parseFloat f.lat) (P.parseFloat f.lng)
    (getQuartierFromLatLng P (P.parseFloat f.lat) (P.parseFloat f.lng)) photos S i ps
    oldPhotos hst hfound hps hph
  rw [hsave]
  exact ⟨_, hupd, by simp [overwriteFields, assign, getProp, lookup_setField]⟩

/-- C14. Tag edit round trip: for every list `T` of normalised tags (non-empty, trimmed,
comma-free, as every list that `normalizeTags` returns is), normalising the text that the
editor shows, `T.join(", ")`, gives `T` back, and so does normalising the remote encoding
`T.join(",")`. Hence opening a record whose tags are `T` and saving it with the tags field as
`setSelected` filled it leaves the tags of the record unchanged. -/
theorem normalizeTags_roundtrip (P : Platform) (T : List String) (hT : ∀ t ∈ T, NormalTag t) :
    normalizeTags (some (joinWith P ", " (T.map JVal.str))) = T ∧
      normalizeTags (some (joinComma P (T.map JVal.str))) = T ∧
      (∀ s, ∀ t ∈ normalizeTags s, NormalTag t) ∧
      (∀ t, getProp t "tags" = .ok (.arr (T.map JVal.str)) →
        ∃ text, tagsFieldText P t = .ok text ∧ normalizeTags (some text) = T) ∧
      ∀ (st : AppState) (f : Form) (S photos : List JVal) (i : Nat) (hi : i < S.length)
        (oldPhotos : List JVal), st.trees = .arr S →
        (P.parseFloat f.lat).isFinite = true → (P.parseFloat f.lng).isFinite = true →
        readFilesAsDataUrls f.files = .ok photos → truthy st.selectedId = true →
        findIndexById S st.selectedId = .ok (some i) → previousPhotos S[i] = .ok oldPhotos →
        getProp S[i] "tags" = .ok (.arr (T.map JVal.str)) →
        tagsFieldText P S[i] = .ok f.tags →
        ∃ t', (saveClick P st f).state.trees = .arr (S.set i t') ∧
          getProp t' "tags" = getProp S[i] "tags" := by
  have h1 := normalizeTags_of_chars _ T (tags_of_joinWith P T hT)
  have h2 := normalizeTags_of_chars _ T (tags_of_joinComma P T hT)
  refine ⟨h1, h2, normalTag_of_mem, ?_, ?_⟩
  · intro t ht
    exact ⟨_, tagsFieldText_of_array P t _ ht, h1⟩
  · intro st f S photos i hi oldPhotos hst hlat hlng hfiles hsel hfound hph htags htext
    obtain ⟨t', htrees, ht'⟩ := saveClick_update_tags P st f S photos i hi oldPhotos hst hlat
      hlng hfiles hsel hfound hph
    refine ⟨t', htrees, ?_⟩
    rw [tagsFieldText_of_array P _ _ htags] at htext
    have hf : f.tags = joinWith P ", " (T.map JVal.str) := (Except.ok.inj htext).symm
    rw [ht', hf, h1, htags]

/-- Witness of C14: the tags `a` and `b c`, as `normalizeTags` returns them for `a, b c`. -/
theorem normalizeTags_roundtrip_witness :
    normalizeTags (some (joinWith samplePlatform ", " (["a", "b c"].map JVal.str)))
        = ["a", "b c"] ∧
      normalizeTags (some (joinComma samplePlatform (["a", "b c"].map JVal.str)))
        = ["a", "b c"] :=
  have hT : ∀ t ∈ ["a", "b c"], NormalTag t := fun t ht =>
    normalTag_of_mem (some "a, b c") t
      ((show normalizeTags (some "a, b c") = ["a", "b c"] by decide) ▸ ht)
  ⟨(normalizeTags_roundtrip samplePlatform ["a", "b c"] hT).1,
    (normalizeTags_roundtrip samplePlatform ["a", "b c"] hT).2.1⟩

/-! ## C15: HTML escaping -/

theorem replaceAllChar_append (a b : List Char) (c : Char) (rep : List Char) :
    replaceAllChar (a ++ b) c rep = replaceAllChar a c rep ++ replaceAllChar b c rep := by
  induction a with
  | nil => rfl
  | cons x xs ih => simp [replaceAllChar, ih]

theorem escapeChars_append (a b : List Char) :
    escapeChars (a ++ b) = escapeChars a ++ escapeChars b := by
  simp [escapeChars, replaceAllChar_append]

theorem escapeChars_single (c : Char) : escapeChars [c] = escapeChar c := by
  by_cases h1 : c = '&'
  · subst h1
    decide
  · by_cases h2 : c = '<'
    · subst h2
      decide
    · by_cases h3 : c = '>'
      · subst h3
        decide
      · by_cases h4 : c = doubleQuote
        · subst h4
          decide
        · by_cases h5 : c = singleQuote
          · subst h5
            decide
          · simp [escapeChars, replaceAllChar, escapeChar, h1, h2, h3, h4, h5]

theorem escapeChars_cons (c : Char) (cs : List Char) :
    escapeChars (c :: cs) = escapeChar c ++ escapeChars cs := by
  rw [show c :: cs = [c] ++ cs from rfl, escapeChars_append, escapeChars_single]

theorem entity_shape (e : List Char) (he : e ∈ entities) :
    ∃ tl, e = '&' :: tl ∧ '&' ∉ tl ∧ '<' ∉ tl ∧ '>' ∉ tl ∧ doubleQuote ∉ tl ∧
      singleQuote ∉ tl := by
  simp only [entities, List.mem_cons, List.mem_singleton, List.mem_nil_iff, or_false] at he
  rcases he with rfl | rfl | rfl | rfl | rfl <;> exact ⟨_, rfl, by decide⟩

theorem escapeChar_shape (c : Char) :
    escapeChar c ∈ entities ∨
      (escapeChar c = [c] ∧ c ≠ '&' ∧ c ≠ '<' ∧ c ≠ '>' ∧ c ≠ doubleQuote ∧
        c ≠ singleQuote) := by
  unfold escapeChar
  split
  · exact Or.inl (by decide)
  · split
    · exact Or.inl (by decide)
    · split
      · exact Or.inl (by decide)
      · split
        · exact Or.inl (by decide)
        · split
          · exact Or.inl (by decide)
          · exact Or.inr ⟨rfl, by assumption, by assumption, by assumption, by assumption,
              by assumption⟩

theorem escapeChars_no_special (cs : List Char) (x : Char) (hx : x ∈ escapeChars cs) :
    x ≠ '<' ∧ x ≠ '>' ∧ x ≠ doubleQuote ∧ x ≠ singleQuote := by
  induction cs with
  | nil => simp [escapeChars, replaceAllChar] at hx
  | cons c rest ih =>
    rw [escapeChars_cons, List.mem_append] at hx
    rcases hx with h | h
    · rcases escapeChar_shape c with he | ⟨he, _, h2, h3, h4, h5⟩
      · obtain ⟨tl, htl, _, t2, t3, t4, t5⟩ := entity_shape _ he
        rw [htl] at h
        rcases List.mem_cons.1 h with e | e
        · subst e
          decide
        · exact ⟨fun e' => t2 (e' ▸ e), fun e' => t3 (e' ▸ e), fun e' => t4 (e' ▸ e),
            fun e' => t5 (e' ▸ e)⟩
      · rw [he, List.mem_singleton] at h
        subst h
        exact ⟨h2, h3, h4, h5⟩
    · exact ih h

theorem escapeChars_amp (cs pre suf : List Char) (h : escapeChars cs = pre ++ '&' :: suf) :
    ∃ e ∈ entities, ∃ rest, '&' :: suf = e ++ rest := by
  induction cs generalizing pre with
  | nil =>
    have : escapeChars [] = [] := rfl
    rw [this] at h
    simp at h
  | cons c rest ih =>
    rw [escapeChars_cons] at h
    rcases List.append_eq_append_iff.1 h with ⟨a', hpre, hE⟩ | ⟨c', hseg, hsuf⟩
    · exact ih a' hE
    · cases c' with
      | nil =>
        simp only [List.nil_append] at hsuf
        exact ih [] (by simpa using hsuf.symm)
      | cons y ys =>
        have hy : y = '&' := by
          have := congrArg List.head? hsuf
          simpa using this.symm
        subst hy
        rcases escapeChar_shape c with he | ⟨he, hne, _⟩
        · obtain ⟨tl, htl, hamp, _⟩ := entity_shape _ he
          have hpre : pre = [] := by
            cases pre with
            | nil => rfl
            | cons z zs =>
              rw [htl] at hseg
              simp only [List.cons_append, List.cons.injEq] at hseg
              exfalso
              apply hamp
              rw [hseg.2]
              simp
          subst hpre
          simp only [List.nil_append] at hseg
          exact ⟨escapeChar c, he, escapeChars rest, by rw [hsuf, ← hseg]⟩
        · rw [he] at hseg
          cases pre with
          | nil =>
            simp only [List.nil_append, List.cons.injEq] at hseg
            exact absurd hseg.1 hne
          | cons z zs =>
            simp at hseg

theorem decodeHead_of_ne (c : Char) (done : List Char) (h : c ≠ '&') :
    decodeHead c done = c :: done := by
  simp [decodeHead, h]

theorem unescapeChars_escapeChar (c : Char) (cs : List Char) :
    unescapeChars (escapeChar c ++ cs) = c :: unescapeChars cs := by
  by_cases h1 : c = '&'
  · subst h1
    simp [escapeChar, unescapeChars, decodeHead, afterBody]
  · by_cases h2 : c = '<'
    · subst h2
      simp [escapeChar, unescapeChars, decodeHead, afterBody]
    · by_cases h3 : c = '>'
      · subst h3
        simp [escapeChar, unescapeChars, decodeHead, afterBody]
      · by_cases h4 : c = doubleQuote
        · subst h4
          simp [escapeChar, unescapeChars, decodeHead, afterBody, doubleQuote]
        · by_cases h5 : c = singleQuote
          · subst h5
            simp [escapeChar, unescapeChars, decodeHead, afterBody, singleQuote, doubleQuote]
          · simp [escapeChar, unescapeChars, decodeHead_of_ne, h1, h2, h3, h4, h5]

theorem unescapeChars_escapeChars (cs : List Char) : unescapeChars (escapeChars cs) = cs := by
  induction cs with
  | nil => rfl
  | cons c rest ih => rw [escapeChars_cons, unescapeChars_escapeChar, ih]

theorem escapeHtml_str (P : Platform) (s : String) :
    (escapeHtml P (.str s)).toList = escapeChars s.toList := by
  simp [escapeHtml, toStr, String.toList]

/-- C15. HTML escaping: for every string `s`, the characters of `escapeHtml(s)` hold no `<`,
no `>`, no double quote and no single quote; every `&` among them is the first character of one
of the five entities `&amp;` `&lt;` `&gt;` `&quot;` `&#039;`; replacing the entities by their
characters gives `s` back, so that two strings with the same escaped text are equal; and `null`
and `undefined` give the empty string. -/
theorem escapeHtml_spec (P : Platform) (s : String) :
    ('<' ∉ (escapeHtml P (.str s)).toList ∧ '>' ∉ (escapeHtml P (.str s)).toList ∧
        doubleQuote ∉ (escapeHtml P (.str s)).toList ∧
        singleQuote ∉ (escapeHtml P (.str s)).toList) ∧
      (∀ pre suf, (escapeHtml P (.str s)).toList = pre ++ '&' :: suf →
        ∃ e ∈ entities, ∃ rest, '&' :: suf = e ++ rest) ∧
      unescapeChars (escapeHtml P (.str s)).toList = s.toList ∧
      (∀ s' : String, escapeHtml P (.str s) = escapeHtml P (.str s') → s = s') ∧
      escapeHtml P .null = "" ∧ escapeHtml P .undefined = "" := by
  refine ⟨⟨?_, ?_, ?_, ?_⟩, ?_, ?_, ?_, rfl, rfl⟩
  · intro h
    rw [escapeHtml_str] at h
    exact (escapeChars_no_special _ _ h).1 rfl
  · intro h
    rw [escapeHtml_str] at h
    exact (escapeChars_no_special _ _ h).2.1 rfl
  · intro h
    rw [escapeHtml_str] at h
    exact (escapeChars_no_special _ _ h).2.2.1 rfl
  · intro h
    rw [escapeHtml_str] at h
    exact (escapeChars_no_special _ _ h).2.2.2 rfl
  · intro pre suf h
    rw [escapeHtml_str] at h
    exact escapeChars_amp _ pre suf h
  · rw [escapeHtml_str, unescapeChars_escapeChars]
  · intro s' h
    have h2 := congrArg (fun t => unescapeChars t.toList) h
    simp only [escapeHtml_str, unescapeChars_escapeChars] at h2
    exact String.ext h2

/-- Witness of C15: in the escaped text of `a&b`, the `&` starts an entity. -/
theorem escapeHtml_spec_witness :
    ∃ e ∈ entities, ∃ rest, '&' :: "amp;b".toList = e ++ rest :=
  (escapeHtml_spec samplePlatform "a&b").2.1 ['a'] "amp;b".toList (by decide)

end Arbres
